import Mathlib

/-!
A verification development for `src/odourcollect_utils.py` (OCUtils).

The pandas `DataFrame` is modelled as an index length (`nrows`) together
with an ordered list of named, dtype-tagged columns; a cell is a text
value, a calendar date, a float (rational) or an integer.  In-place
mutation of the frame is modelled by threading the table state through
each operation; a raised exception is an `Except.error` carrying the
error kind and the table state at the moment of the raise; the Python
return value of a filter (which is `None` for `type_casting`) is
represented explicitly in `FilterOutcome.ret`.
-/

set_option autoImplicit false

deriving instance DecidableEq for Except

namespace OCUtils

/-- Column dtypes: `obj` is the initial all-text dtype of loaded data,
the others arise from the casts in `type_casting`. -/
inductive DType where
  | obj
  | category
  | datetime
  | floatT
  | intT
deriving DecidableEq, Repr

/-- An exact rational in lowest terms, modelling the float values the
timedelta-to-minutes division produces (which are exact for this data). -/
structure Frac where
  num : Int
  den : Nat
deriving DecidableEq, Repr

/-- Build the lowest-terms representation of `num / den`. -/
def mkFrac (num : Int) (den : Nat) : Frac :=
  if den = 0 then ⟨0, 0⟩
  else
    let g := Nat.gcd num.natAbs den
    ⟨num / (g : Int), den / g⟩

/-- Cell values: text (the initial state of every loaded cell), a parsed
calendar date, a float (modelled as an exact fraction, produced by the
timedelta-to-minutes division), or an integer. -/
inductive Cell where
  | str (s : String)
  | date (y m d : Nat)
  | fl (q : Frac)
  | int (n : Int)
deriving DecidableEq, Repr

/-! ### Character-list utilities

The Python string operations the code uses (`str.split`, `int(...)`,
`str.strip`, `os.path` helpers) are modelled by structural recursion over
the character list of the string. -/

/-- `str.split(sep)` for a one-character separator: the empty text yields
one empty piece. -/
def splitOnChar (sep : Char) : List Char → List (List Char)
  | [] => [[]]
  | c :: rest =>
    if c = sep then [] :: splitOnChar sep rest
    else
      match splitOnChar sep rest with
      | [] => [[c]]
      | g :: gs => (c :: g) :: gs

/-- Decimal digit value of a character. -/
def digitVal (c : Char) : Option Nat :=
  if '0' ≤ c ∧ c ≤ '9' then some (c.toNat - 48) else none

/-- Accumulate decimal digits. -/
def parseNatAux : List Char → Nat → Option Nat
  | [], acc => some acc
  | c :: rest, acc =>
    match digitVal c with
    | some d => parseNatAux rest (acc * 10 + d)
    | none => none

/-- Nonempty all-digit text to a number. -/
def parseNatChars (cs : List Char) : Option Nat :=
  match cs with
  | [] => none
  | _ => parseNatAux cs 0

/-- Python `int(s)` on already-space-free text: optional sign, then
decimal digits. -/
def parseIntChars : List Char → Option Int
  | [] => none
  | '-' :: rest => (parseNatChars rest).map (fun n => -(n : Int))
  | '+' :: rest => (parseNatChars rest).map (fun n => (n : Int))
  | cs => (parseNatChars cs).map (fun n => (n : Int))

/-- ASCII whitespace, as Python's `str.strip` default set (the part of it
relevant to config files). -/
def isSpaceChar (c : Char) : Bool :=
  c = ' ' ∨ c = '\t' ∨ c = '\n' ∨ c = '\r'

/-- Strip leading and trailing whitespace. -/
def trimChars (cs : List Char) : List Char :=
  ((cs.dropWhile isSpaceChar).reverse.dropWhile isSpaceChar).reverse

/-- One named DataFrame column. -/
structure Col where
  name : String
  dtype : DType
  cells : List Cell
deriving DecidableEq, Repr

/-- A DataFrame: an index length plus the ordered list of columns. -/
structure Table where
  nrows : Nat
  cols : List Col
deriving DecidableEq, Repr

instance : Inhabited Table := ⟨⟨0, []⟩⟩

/-- Python `'name' in df`: membership test on the column names. -/
def hasCol (t : Table) (n : String) : Bool :=
  t.cols.any (fun c => c.name == n)

/-- First column carrying a given name (what `df[name]` reads when the
names are unique). -/
def findColNamed (n : String) : List Col → Option Col
  | [] => none
  | c :: cs => if c.name = n then some c else findColNamed n cs

/-- Names of the columns in order (what `for column in ocdata` iterates). -/
def tableNames (t : Table) : List String :=
  t.cols.map Col.name

/-- The error kinds of the specification, §7, plus the raw Python errors
`IndexError` / `TypeError` / `AttributeError` that the code can also hit. -/
inductive PyErr where
  | unsupportedFormat
  | unknownFilter (available : List String)
  | schemaConflict
  | malformedDate
  | malformedInteger
  | malformedDuration
  | configNotFound
  | configMalformed
  | indexError
  | typeError
  | attributeError
deriving DecidableEq, Repr

/-- What one Python filter call produces on success: the mutated frame
(`state`) and the value the function returns (`ret`), which is the frame
itself for four of the filters and `None` for `type_casting`. -/
structure FilterOutcome where
  ret : Option Table
  state : Table
deriving DecidableEq, Repr

/-- Exception propagation: if the first statement raised, the raise
propagates; otherwise continue with its result. -/
def orRaise {σ τ : Type} (x : Except (PyErr × Table) σ)
    (g : σ → Except (PyErr × Table) τ) : Except (PyErr × Table) τ :=
  match x with
  | .error e => .error e
  | .ok v => g v

/-! ### fix_typos -/

/-- Rename a single name occurrence, as `df.rename(columns={src: tgt})`
acts on one name. -/
def renameName (src tgt s : String) : String :=
  if s = src then tgt else s

/-- `df.rename(columns={src: tgt}, inplace=True)`: every column whose
name is `src` is renamed to `tgt`; cells are untouched. -/
def renameCols (src tgt : String) (t : Table) : Table :=
  { t with cols := t.cols.map (fun c => { c with name := renameName src tgt c.name }) }

/-- `OCFilterProvider.fix_typos`: three guarded in-place renames,
`Intentity`→`Intensity`, `day`→`Day`, `time`→`Time`. -/
def fix_typos_core (t : Table) : Table :=
  let t1 := if hasCol t "Intentity" then renameCols "Intentity" "Intensity" t else t
  let t2 := if hasCol t1 "day" then renameCols "day" "Day" t1 else t1
  if hasCol t2 "time" then renameCols "time" "Time" t2 else t2

/-- The `fix_typos` filter call: mutates in place and returns the frame. -/
def fix_typos (t : Table) : Except (PyErr × Table) FilterOutcome :=
  let t' := fix_typos_core t
  .ok ⟨some t', t'⟩

/-- The composite rename `fix_typos` performs on a single column name:
the three renames applied in the order of the source. -/
def canonTypoName (s : String) : String :=
  renameName "time" "Time" (renameName "day" "Day" (renameName "Intentity" "Intensity" s))

/-! ### fix_userids -/

/-- `ocdata[n] = ''`: append a new column of empty text, one cell per
index row, with object dtype. -/
def appendEmptyCol (n : String) (t : Table) : Table :=
  { t with cols := t.cols ++ [⟨n, .obj, List.replicate t.nrows (.str "")⟩] }

/-- `OCFilterProvider.fix_userids`: inject a blank `User` column when it
is missing. -/
def fix_userids_core (t : Table) : Table :=
  if hasCol t "User" then t else appendEmptyCol "User" t

/-- The `fix_userids` filter call. -/
def fix_userids (t : Table) : Except (PyErr × Table) FilterOutcome :=
  let t' := fix_userids_core t
  .ok ⟨some t', t'⟩

/-! ### odour_literals_to_numbers -/

/-- The nine-level annoyance mapping, plus empty string to the neutral
code. -/
def annoy_mapping : List (String × String) :=
  [("Extremely unpleasant", "-4"), ("Very unpleasant", "-3"), ("Unpleasant", "-2"),
   ("Slightly unpleasant", "-1"), ("Neutral", "0"), ("Slightly pleasant", "1"),
   ("Pleasant", "2"), ("Very pleasant", "3"), ("Extremely pleasant", "4"), ("", "0")]

/-- The seven-level intensity mapping, plus empty string to zero. -/
def intensity_mapping : List (String × String) :=
  [("Extremely strong", "6"), ("Very strong", "5"), ("Strong", "4"), ("Distinct", "3"),
   ("Weak", "2"), ("Very weak", "1"), ("Not perceptible", "0"), ("", "0")]

/-- The categorical-duration to duration-text mapping. -/
def duration_mapping : List (String × String) :=
  [("Continuous odor throughout the day", "1 day 00:00:00"),
   ("Continuous odor in the last hour", "01:00:00"),
   ("Punctual odor", "00:05:00"),
   ("", "00:00:00")]

/-- The dict-of-dicts argument of the first `DataFrame.replace` call. -/
def intensity_and_annoy_mapping : List (String × List (String × String)) :=
  [("Intensity", intensity_mapping), ("Annoy", annoy_mapping), ("Duration", duration_mapping)]

/-- The Annoy-only correction of historically mis-typed labels. -/
def bastard_tone_mapping : List (String × String) :=
  [("Moderate unpleasant", "-3"), ("Moderate pleasant", "3"), ("Extremely pleasan", "4")]

/-- Value substitution of `DataFrame.replace` on a single cell: an exact
text match is replaced, anything else is left unchanged. -/
def substCell (d : List (String × String)) : Cell → Cell
  | .str s => .str ((d.lookup s).getD s)
  | c => c

/-- Column-scoped substitution: the dict registered under the column's
name (if any) is applied to every cell. -/
def substCol (m : List (String × List (String × String))) (c : Col) : Col :=
  match m.lookup c.name with
  | some d => { c with cells := c.cells.map (substCell d) }
  | none => c

/-- `DataFrame.replace(m, inplace=True)` with a dict-of-dicts argument. -/
def replaceTable (m : List (String × List (String × String))) (t : Table) : Table :=
  { t with cols := t.cols.map (substCol m) }

/-- `OCFilterProvider.odour_literals_to_numbers`: the main substitution,
then the Annoy-only correction. -/
def odour_literals_to_numbers_core (t : Table) : Table :=
  replaceTable [("Annoy", bastard_tone_mapping)]
    (replaceTable intensity_and_annoy_mapping t)

/-- The `odour_literals_to_numbers` filter call. -/
def odour_literals_to_numbers (t : Table) : Except (PyErr × Table) FilterOutcome :=
  let t' := odour_literals_to_numbers_core t
  .ok ⟨some t', t'⟩

/-! ### add_analyst_fields -/

/-- The five analyst-only columns, in the order the loop adds them. -/
def analystFields : List String :=
  ["Typeoverride", "Subtypeoverride", "Intensityoverride", "Annoyoverride", "Analystcomments"]

/-- The loop body of `add_analyst_fields`: for each field in order,
raise `SchemaConflict` if it is already present (leaving the frame in its
current, possibly already extended, state), otherwise append it blank. -/
def addFieldsAux : List String → Table → Except (PyErr × Table) Table
  | [], t => .ok t
  | f :: rest, t =>
    if hasCol t f then .error (.schemaConflict, t)
    else addFieldsAux rest (appendEmptyCol f t)

/-- The `add_analyst_fields` filter call. -/
def add_analyst_fields (t : Table) : Except (PyErr × Table) FilterOutcome :=
  orRaise (addFieldsAux analystFields t) (fun t' => .ok ⟨some t', t'⟩)

/-! ### type_casting -/

/-- `mapM` over `Except` written by direct recursion, used for per-cell
column casts. -/
def exMapM {α β ε : Type} (f : α → Except ε β) : List α → Except ε (List β)
  | [] => .ok []
  | a :: as =>
    match f a with
    | .error e => .error e
    | .ok b =>
      match exMapM f as with
      | .error e => .error e
      | .ok bs => .ok (b :: bs)

/-- Apply a fallible column transformation to every column carrying the
given name, leaving the others untouched. -/
def updateColsAux (n : String) (f : Col → Except PyErr Col) : List Col → Except PyErr (List Col)
  | [] => .ok []
  | c :: cs =>
    if c.name = n then
      match f c with
      | .error e => .error e
      | .ok c' =>
        match updateColsAux n f cs with
        | .error e => .error e
        | .ok cs' => .ok (c' :: cs')
    else
      match updateColsAux n f cs with
      | .error e => .error e
      | .ok cs' => .ok (c :: cs')

/-- `ocdata[n] = f(ocdata[n])`: on an error the assignment has not
happened, so the error carries the unchanged table. -/
def updateCol (n : String) (f : Col → Except PyErr Col) (t : Table) :
    Except (PyErr × Table) Table :=
  match updateColsAux n f t.cols with
  | .error e => .error (e, t)
  | .ok cs => .ok { t with cols := cs }

/-- `astype('category')`: tag the column categorical, values retained. -/
def astypeCategory (c : Col) : Except PyErr Col :=
  .ok { c with dtype := .category }

/-- Date text accepted by the `pd.to_datetime` model: `YYYY-MM-DD`. -/
def parseDateParts (s : String) : Option (Nat × Nat × Nat) :=
  match splitOnChar '-' s.toList with
  | [y, m, d] =>
    match parseNatChars y, parseNatChars m, parseNatChars d with
    | some yn, some mn, some dn => some (yn, mn, dn)
    | _, _, _ => none
  | _ => none

/-- One cell of `pd.to_datetime`: unparseable text raises the
`MalformedDate` kind. -/
def toDatetimeCell : Cell → Except PyErr Cell
  | .str s =>
    match parseDateParts s with
    | some (y, m, d) => .ok (.date y m d)
    | none => .error .malformedDate
  | .date y m d => .ok (.date y m d)
  | _ => .error .malformedDate

/-- `pd.to_datetime` over a column. -/
def toDatetimeCol (c : Col) : Except PyErr Col :=
  match exMapM toDatetimeCell c.cells with
  | .error e => .error e
  | .ok cs => .ok { c with dtype := .datetime, cells := cs }

/-- `HH:MM:SS` to a second count. -/
def parseHMS (cs : List Char) : Option Int :=
  match splitOnChar ':' cs with
  | [h, m, sec] =>
    match parseNatChars h, parseNatChars m, parseNatChars sec with
    | some hn, some mn, some sn => some ((hn * 3600 + mn * 60 + sn : Nat) : Int)
    | _, _, _ => none
  | _ => none

/-- Duration text accepted by the `pd.to_timedelta` model:
`HH:MM:SS` or `D day HH:MM:SS` / `D days HH:MM:SS`, to seconds. -/
def parseTimedeltaSeconds (s : String) : Option Int :=
  match splitOnChar ' ' s.toList with
  | [hms] => parseHMS hms
  | [d, u, hms] =>
    if String.mk u = "day" ∨ String.mk u = "days" then
      match parseNatChars d, parseHMS hms with
      | some dn, some hs => some ((dn : Int) * 86400 + hs)
      | _, _ => none
    else none
  | _ => none

/-- One cell of `pd.to_timedelta(col) / pd.Timedelta('60s')`: seconds
divided by sixty, as a float. -/
def toTimedeltaMinutesCell : Cell → Except PyErr Cell
  | .str s =>
    match parseTimedeltaSeconds s with
    | some secs => .ok (.fl (mkFrac secs 60))
    | none => .error .malformedDuration
  | _ => .error .malformedDuration

/-- The timedelta-to-minutes division over a column; the result dtype is
float. -/
def toTimedeltaCol (c : Col) : Except PyErr Col :=
  match exMapM toTimedeltaMinutesCell c.cells with
  | .error e => .error e
  | .ok cs => .ok { c with dtype := .floatT, cells := cs }

/-- IEEE-style rounding half to even of `q.num / q.den`, as
`Series.round()` rounds, in integer arithmetic: with `f` the floor and
`r` the remainder, round down when `r/den < 1/2`, up when above, and to
the even neighbour on a tie. -/
def roundHalfEven (q : Frac) : Int :=
  let f := Int.fdiv q.num (q.den : Int)
  let r := q.num - f * (q.den : Int)
  if 2 * r < (q.den : Int) then f
  else if (q.den : Int) < 2 * r then f + 1
  else if f % 2 = 0 then f else f + 1

/-- One cell of `Series.round()`: floats are rounded, anything else is
passed through. -/
def roundCell : Cell → Except PyErr Cell
  | .fl q => .ok (.fl (mkFrac (roundHalfEven q) 1))
  | c => .ok c

/-- `Series.round()` over a column. -/
def roundCol (c : Col) : Except PyErr Col :=
  match exMapM roundCell c.cells with
  | .error e => .error e
  | .ok cs => .ok { c with cells := cs }

/-- One cell of `.str.replace(' ', '')`: remove every space; the `.str`
accessor on a non-string value yields a NaN which the later integer cast
rejects, modelled as the `MalformedInteger` kind directly. -/
def stripSpacesCell : Cell → Except PyErr Cell
  | .str s => .ok (.str (String.mk (s.toList.filter (fun ch => ch ≠ ' '))))
  | _ => .error .malformedInteger

/-- `.str.replace(' ', '')` over a column. -/
def stripSpacesCol (c : Col) : Except PyErr Col :=
  match exMapM stripSpacesCell c.cells with
  | .error e => .error e
  | .ok cs => .ok { c with cells := cs }

/-- One cell of `astype(str)` on an already-text column. -/
def astypeStrCell : Cell → Except PyErr Cell
  | .str s => .ok (.str s)
  | _ => .error .malformedInteger

/-- `astype(str)` over a column. -/
def astypeStrCol (c : Col) : Except PyErr Col :=
  match exMapM astypeStrCell c.cells with
  | .error e => .error e
  | .ok cs => .ok { c with cells := cs }

/-- One cell of `astype(int)`: base-10 integer text (with optional sign),
anything else raises the `MalformedInteger` kind. -/
def toIntCell : Cell → Except PyErr Cell
  | .str s =>
    match parseIntChars s.toList with
    | some n => .ok (.int n)
    | none => .error .malformedInteger
  | _ => .error .malformedInteger

/-- `astype(int)` over a column; the result dtype is int. -/
def toIntCol (c : Col) : Except PyErr Col :=
  match exMapM toIntCell c.cells with
  | .error e => .error e
  | .ok cs => .ok { c with dtype := .intT, cells := cs }

/-- The `category_types` list of `type_casting` (note `Duration` appears
here and in `timedelta_types`). -/
def category_types : List String :=
  ["Type", "Subtype", "Zone", "Status", "Origin", "User", "Intensityoverride",
   "Annoyoverride", "Duration"]

/-- The `datetime_types` list of `type_casting`. -/
def datetime_types : List String := ["Day"]

/-- The `timedelta_types` list of `type_casting`. -/
def timedelta_types : List String := ["Time", "Duration"]

/-- The `int_types` list of `type_casting`. -/
def int_types : List String := ["Intensity", "Annoy"]

/-- The `if column in category_types:` block of the loop body. -/
def castCategoryStep (column : String) (t : Table) : Except (PyErr × Table) Table :=
  if column ∈ category_types then updateCol column astypeCategory t else .ok t

/-- The `if column in datetime_types:` block of the loop body. -/
def castDatetimeStep (column : String) (t : Table) : Except (PyErr × Table) Table :=
  if column ∈ datetime_types then updateCol column toDatetimeCol t else .ok t

/-- The `if column in timedelta_types:` block of the loop body: the
division assignment, then the `round()` assignment. -/
def castTimedeltaStep (column : String) (t : Table) : Except (PyErr × Table) Table :=
  if column ∈ timedelta_types then
    orRaise (updateCol column toTimedeltaCol t) (fun u => updateCol column roundCol u)
  else .ok t

/-- The `if column in int_types:` block of the loop body: strip spaces,
`astype(str)`, `astype(int)`. -/
def castIntStep (column : String) (t : Table) : Except (PyErr × Table) Table :=
  if column ∈ int_types then
    orRaise (updateCol column stripSpacesCol t) (fun u1 =>
      orRaise (updateCol column astypeStrCol u1) (fun u2 =>
        updateCol column toIntCol u2))
  else .ok t

/-- The body of the `for column in ocdata` loop of `type_casting`: the
four membership checks are sequential `if`s, not `elif`s, so `Duration`
is first tagged categorical and then overwritten by the duration cast. -/
def castOne (column : String) (t : Table) : Except (PyErr × Table) Table :=
  orRaise (castCategoryStep column t) (fun t1 =>
    orRaise (castDatetimeStep column t1) (fun t2 =>
      orRaise (castTimedeltaStep column t2) (fun t3 =>
        castIntStep column t3)))

/-- The `for column in ocdata` loop over the listed column names. -/
def castLoop : List String → Table → Except (PyErr × Table) Table
  | [], t => .ok t
  | n :: rest, t => orRaise (castOne n t) (fun t' => castLoop rest t')

/-- The `type_casting` filter call.  The Python function has no `return`
statement: on success it mutates the frame in place and returns `None`. -/
def type_casting (t : Table) : Except (PyErr × Table) FilterOutcome :=
  orRaise (castLoop (tableNames t) t) (fun t' => .ok ⟨none, t'⟩)

/-! ### Filter registry and runner -/

/-- The filter names `dir(self)` discovery yields (the five non-internal
members, in `dir`'s sorted order), mirrored from
`OCFilterProvider.__init__`. -/
def availableFilters : List String :=
  ["add_analyst_fields", "fix_typos", "fix_userids", "odour_literals_to_numbers",
   "type_casting"]

/-- `getattr(self, data_filter)(data_frame)`: dispatch one filter call by
name; an unregistered name would be an `AttributeError`. -/
def runStep (name : String) (t : Table) : Except (PyErr × Table) FilterOutcome :=
  if name = "fix_typos" then fix_typos t
  else if name = "fix_userids" then fix_userids t
  else if name = "odour_literals_to_numbers" then odour_literals_to_numbers t
  else if name = "add_analyst_fields" then add_analyst_fields t
  else if name = "type_casting" then type_casting t
  else .error (.attributeError, t)

/-- `OCFilterProvider.__run__`: thread the Python variable `data_frame`
(first component, which a `None`-returning filter sets to `None`) through
the calls; the second component is the in-place state of the frame. -/
def runFiltersAux : List String → Option Table → Table → Except (PyErr × Table) (Option Table × Table)
  | [], cur, st => .ok (cur, st)
  | n :: rest, cur, st =>
    match cur with
    | none => .error (.typeError, st)
    | some tb => orRaise (runStep n tb) (fun o => runFiltersAux rest o.ret o.state)

/-- `OCFilterProvider.__init__`: validate that every requested filter is
available, raising the `UnknownFilter` kind (whose message carries the
fixed text plus the available set, and nothing else) before any filter
runs; on success run the list. -/
def mkFilterProvider (filter_list : List String) (t : Table) :
    Except (PyErr × Table) (Option Table × Table) :=
  if filter_list.all (fun f => availableFilters.contains f) then
    runFiltersAux filter_list (some t) t
  else .error (.unknownFilter availableFilters, t)

/-- The ordered filter list of `OCObservationData`. -/
def observationFilters : List String :=
  ["fix_typos", "fix_userids", "odour_literals_to_numbers", "add_analyst_fields",
   "type_casting"]

/-- The ordered filter list of `OCAnalysisData`. -/
def analysisFilters : List String := ["type_casting"]

/-! ### GenericOCData file-type resolution -/

/-- `os.path.basename` on a POSIX path. -/
def pyBasename (p : String) : String :=
  String.mk ((splitOnChar '/' p.toList).getLastD [])

/-- The extension part of `os.path.splitext` on a basename: the suffix
from the last dot, except that leading dots of the basename never start
an extension. -/
def extOf (b : String) : String :=
  let cs := b.toList
  let rest := cs.dropWhile (fun ch => ch = '.')
  if rest.contains '.' then
    String.mk ('.' :: (splitOnChar '.' rest).getLastD [])
  else ""

/-- `os.path.splitext(file_name)[1]`. -/
def pySplitextExt (p : String) : String :=
  extOf (pyBasename p)

/-- `os.path.splitext(file_name)[1].split('.', -1)[1]`: the subscript
`[1]` raises `IndexError` when the split yields a single piece, which
happens exactly when the extension is empty. -/
def autoFileType (file_name : String) : Except PyErr String :=
  match (splitOnChar '.' (pySplitextExt file_name).toList)[1]? with
  | some tname => .ok (String.mk tname)
  | none => .error .indexError

/-- The file-type dispatch of `GenericOCData.__init__`: resolve `auto`
through the extension, then accept `csv` / `xlsx` / `xls` or raise the
`UnsupportedFormat` kind. -/
def resolveFileType (file_name file_type : String) : Except PyErr String :=
  match (if file_type = "auto" then autoFileType file_name else .ok file_type) with
  | .error e => .error e
  | .ok ft =>
    if ft = "csv" then .ok "csv"
    else if ft = "xlsx" ∨ ft = "xls" then .ok ft
    else .error .unsupportedFormat

/-! ### OCMapConfig -/

/-- A Python value the config loader's `eval` can hand back: an integer
or a dictionary (kept as its source text). -/
inductive PyLit where
  | int (n : Int)
  | dict (src : String)
deriving DecidableEq, Repr

/-- `os.path.splitext(b)[0]` on a basename. -/
def splitextRoot (b : String) : String :=
  String.mk (b.toList.take (b.toList.length - (extOf b).toList.length))

/-- Modelled fragment of the Python builtin `eval` on literal text, which
`OCMapConfig.get` applies to the file content: an integer literal
evaluates to that integer, brace-enclosed text to a dictionary, anything
else is a `SyntaxError` (`none`).  Note `eval` succeeds on any valid
expression, dictionary or not. -/
def pyEvalLit (content : String) : Option PyLit :=
  let cs := trimChars content.toList
  match parseIntChars cs with
  | some n => some (.int n)
  | none =>
    if cs.head? = some '\x7b' ∧ cs.getLast? = some '\x7d' then
      some (.dict (String.mk cs))
    else none

/-- `OCMapConfig.get`: resolve `<folder>/<stripped name>.conf` against the
file system (modelled as an association list of path to content), raise
the `ConfigNotFound` kind when absent, `ConfigMalformed` only on a
`SyntaxError` of `eval`, and otherwise return whatever value `eval`
produced. -/
def ocMapConfigGet (files : List (String × String)) (conf_folder conf_name : String) :
    Except PyErr PyLit :=
  let name := splitextRoot (pyBasename conf_name)
  let map_conf_path := conf_folder ++ "/" ++ name ++ ".conf"
  match files.lookup map_conf_path with
  | none => .error .configNotFound
  | some contents =>
    match pyEvalLit contents with
    | none => .error .configMalformed
    | some v => .ok v

/-! ### Concrete sample tables used by the claim theorems -/

/-- A one-row table with a single `Zone` column. -/
def zoneSample : Table := ⟨1, [⟨"Zone", .obj, [.str "north"]⟩]⟩

/-- `zoneSample` after `type_casting`. -/
def zoneSampleOut : Table := ⟨1, [⟨"Zone", .category, [.str "north"]⟩]⟩

/-- A one-row table that already carries `Analystcomments`. -/
def analystSample : Table := ⟨1, [⟨"Analystcomments", .obj, [.str "x"]⟩]⟩

/-- The partial state `add_analyst_fields` leaves behind when it raises
on `analystSample`: the four fields preceding the conflicting one have
already been added. -/
def analystSampleOut : Table :=
  ⟨1, [⟨"Analystcomments", .obj, [.str "x"]⟩,
       ⟨"Typeoverride", .obj, [.str ""]⟩,
       ⟨"Subtypeoverride", .obj, [.str ""]⟩,
       ⟨"Intensityoverride", .obj, [.str ""]⟩,
       ⟨"Annoyoverride", .obj, [.str ""]⟩]⟩

/-- A table containing both the typo source `Intentity` and its rename
target `Intensity`. -/
def typoSample : Table := ⟨0, [⟨"Intentity", .obj, []⟩, ⟨"Intensity", .obj, []⟩]⟩

/-- A table containing only the typo source `Intentity`. -/
def typoWitnessSample : Table := ⟨0, [⟨"Intentity", .obj, []⟩]⟩

/-- The three-value `Annoy` column of the specification's example. -/
def annoySample : Table :=
  ⟨3, [⟨"Annoy", .obj, [.str "Slightly unpleasant", .str "Moderate unpleasant", .str ""]⟩]⟩

/-- The one-cell `Duration` column of the specification's example. -/
def durationSample : Table := ⟨1, [⟨"Duration", .obj, [.str "Punctual odor"]⟩]⟩

/-- A one-row observation table lacking a `User` column. -/
def obsSample : Table := ⟨1, [⟨"Type", .obj, [.str "fruity"]⟩]⟩

/-- The table the full Observation profile produces from `obsSample`. -/
def obsSampleOut : Table :=
  ⟨1, [⟨"Type", .category, [.str "fruity"]⟩,
       ⟨"User", .category, [.str ""]⟩,
       ⟨"Typeoverride", .obj, [.str ""]⟩,
       ⟨"Subtypeoverride", .obj, [.str ""]⟩,
       ⟨"Intensityoverride", .category, [.str ""]⟩,
       ⟨"Annoyoverride", .category, [.str ""]⟩,
       ⟨"Analystcomments", .obj, [.str ""]⟩]⟩

/-- An empty table. -/
def emptySample : Table := ⟨0, []⟩

/-- A modelled config directory holding one file whose content is the
integer literal `42`. -/
def badConfFiles : List (String × String) := [("mapconf/badconf.conf", "42")]

/-! ### Infrastructure lemmas -/

theorem exMapM_ok_length {α β ε : Type} (f : α → Except ε β) :
    ∀ {l : List α} {l' : List β}, exMapM f l = .ok l' → l'.length = l.length := by
  intro l
  induction l with
  | nil =>
    intro l' h
    simp only [exMapM] at h
    injection h with h
    subst h
    rfl
  | cons a as ih =>
    intro l' h
    simp only [exMapM] at h
    split at h
    · simp at h
    · split at h
      · simp at h
      · rename_i bs hm
        injection h with h
        subst h
        simp [ih hm]

theorem exMapM_ok_get {α β ε : Type} (f : α → Except ε β) :
    ∀ {l : List α} {l' : List β}, exMapM f l = .ok l' →
      ∀ (i : Nat) (a : α), l[i]? = some a → ∃ b, f a = .ok b ∧ l'[i]? = some b := by
  intro l
  induction l with
  | nil =>
    intro l' h i a ha
    simp at ha
  | cons x as ih =>
    intro l' h i a ha
    simp only [exMapM] at h
    cases hb : f x with
    | error e => rw [hb] at h; simp at h
    | ok b =>
      rw [hb] at h
      cases hm : exMapM f as with
      | error e => rw [hm] at h; simp at h
      | ok bs =>
        rw [hm] at h
        injection h with h
        subst h
        cases i with
        | zero =>
          simp only [List.getElem?_cons_zero, Option.some.injEq] at ha
          subst ha
          exact ⟨b, hb, by simp⟩
        | succ j =>
          simp only [List.getElem?_cons_succ] at ha ⊢
          exact ih hm j a ha

theorem findColNamed_map {g : Col → Col} (hg : ∀ c, (g c).name = c.name) (n : String) :
    ∀ cs : List Col, findColNamed n (cs.map g) = (findColNamed n cs).map g := by
  intro cs
  induction cs with
  | nil => rfl
  | cons c cs ih =>
    simp only [List.map_cons, findColNamed, hg c]
    by_cases h : c.name = n
    · simp [h]
    · simp [h, ih]

theorem findColNamed_append_of_none {n : String} {xs : List Col}
    (h : findColNamed n xs = none) (ys : List Col) :
    findColNamed n (xs ++ ys) = findColNamed n ys := by
  induction xs with
  | nil => rfl
  | cons c cs ih =>
    simp only [findColNamed] at h ⊢
    by_cases hc : c.name = n
    · simp [hc] at h
    · simp only [hc, if_false] at h ⊢
      exact ih h

theorem findColNamed_append_of_some {n : String} {xs : List Col} {c : Col}
    (h : findColNamed n xs = some c) (ys : List Col) :
    findColNamed n (xs ++ ys) = some c := by
  induction xs with
  | nil => simp [findColNamed] at h
  | cons x cs ih =>
    simp only [findColNamed] at h ⊢
    by_cases hc : x.name = n
    · simp only [hc, if_true] at h ⊢
      exact h
    · simp only [hc, if_false] at h ⊢
      exact ih h

theorem findColNamed_eq_none_iff {n : String} {cs : List Col} :
    findColNamed n cs = none ↔ ∀ c ∈ cs, c.name ≠ n := by
  induction cs with
  | nil => simp [findColNamed]
  | cons c cs ih =>
    simp only [findColNamed, List.mem_cons]
    by_cases hc : c.name = n
    · simp [hc]
    · simp [hc, ih]

theorem hasCol_false_iff {t : Table} {n : String} :
    hasCol t n = false ↔ findColNamed n t.cols = none := by
  rw [findColNamed_eq_none_iff]
  simp [hasCol]

theorem findColNamed_some_name {n : String} :
    ∀ {cs : List Col} {c : Col}, findColNamed n cs = some c → c.name = n := by
  intro cs
  induction cs with
  | nil => intro c h; simp [findColNamed] at h
  | cons x cs ih =>
    intro c h
    simp only [findColNamed] at h
    by_cases hc : x.name = n
    · simp only [hc, if_true, Option.some.injEq] at h
      subst h
      exact hc
    · simp only [hc, if_false] at h
      exact ih h

theorem findColNamed_some_split {n : String} :
    ∀ {cs : List Col} {c : Col}, findColNamed n cs = some c →
      ∃ as bs, cs = as ++ c :: bs ∧ ∀ x ∈ as, x.name ≠ n := by
  intro cs
  induction cs with
  | nil => intro c h; simp [findColNamed] at h
  | cons x cs ih =>
    intro c h
    simp only [findColNamed] at h
    by_cases hc : x.name = n
    · simp only [hc, if_true, Option.some.injEq] at h
      subst h
      exact ⟨[], cs, rfl, by simp⟩
    · simp only [hc, if_false] at h
      obtain ⟨as, bs, hcs, hns⟩ := ih h
      refine ⟨x :: as, bs, by simp [hcs], ?_⟩
      intro y hy
      rcases List.mem_cons.mp hy with rfl | hy
      · exact hc
      · exact hns y hy

theorem updateColsAux_nil {n : String} {f : Col → Except PyErr Col} :
    updateColsAux n f [] = .ok [] := rfl

theorem updateColsAux_cons_ok_pos {n : String} {f : Col → Except PyErr Col} {c : Col}
    {cs : List Col} {cs' : List Col} (hc : c.name = n) :
    updateColsAux n f (c :: cs) = .ok cs' ↔
      ∃ c' cs'', f c = .ok c' ∧ updateColsAux n f cs = .ok cs'' ∧ cs' = c' :: cs'' := by
  constructor
  · intro h
    simp only [updateColsAux, if_pos hc] at h
    cases hfc : f c with
    | error e => rw [hfc] at h; simp at h
    | ok d =>
      rw [hfc] at h
      cases hm : updateColsAux n f cs with
      | error e => rw [hm] at h; simp at h
      | ok ds =>
        rw [hm] at h
        injection h with h
        exact ⟨d, ds, rfl, rfl, h.symm⟩
  · rintro ⟨c', cs'', h1, h2, rfl⟩
    simp [updateColsAux, if_pos hc, h1, h2]

theorem updateColsAux_cons_ok_neg {n : String} {f : Col → Except PyErr Col} {c : Col}
    {cs : List Col} {cs' : List Col} (hc : ¬c.name = n) :
    updateColsAux n f (c :: cs) = .ok cs' ↔
      ∃ cs'', updateColsAux n f cs = .ok cs'' ∧ cs' = c :: cs'' := by
  constructor
  · intro h
    simp only [updateColsAux, if_neg hc] at h
    cases hm : updateColsAux n f cs with
    | error e => rw [hm] at h; simp at h
    | ok ds =>
      rw [hm] at h
      injection h with h
      exact ⟨ds, rfl, h.symm⟩
  · rintro ⟨cs'', h2, rfl⟩
    simp [updateColsAux, if_neg hc, h2]

theorem updateColsAux_ok_of_total {n : String} {f : Col → Except PyErr Col}
    (hf : ∀ c, ∃ c', f c = .ok c') :
    ∀ cs : List Col, ∃ cs', updateColsAux n f cs = .ok cs' := by
  intro cs
  induction cs with
  | nil => exact ⟨[], rfl⟩
  | cons c cs ih =>
    obtain ⟨cs', hcs⟩ := ih
    by_cases hc : c.name = n
    · obtain ⟨c', hc'⟩ := hf c
      exact ⟨c' :: cs', (updateColsAux_cons_ok_pos hc).mpr ⟨c', cs', hc', hcs, rfl⟩⟩
    · exact ⟨c :: cs', (updateColsAux_cons_ok_neg hc).mpr ⟨cs', hcs, rfl⟩⟩

theorem updateColsAux_names {n : String} {f : Col → Except PyErr Col}
    (hf : ∀ c c', f c = .ok c' → c'.name = c.name) :
    ∀ {cs cs' : List Col}, updateColsAux n f cs = .ok cs' →
      cs'.map Col.name = cs.map Col.name := by
  intro cs
  induction cs with
  | nil =>
    intro cs' h
    rw [updateColsAux_nil] at h
    injection h with h
    subst h
    rfl
  | cons c cs ih =>
    intro cs' h
    by_cases hc : c.name = n
    · obtain ⟨c', cs'', h1, h2, rfl⟩ := (updateColsAux_cons_ok_pos hc).mp h
      simp [ih h2, hf c c' h1]
    · obtain ⟨cs'', h2, rfl⟩ := (updateColsAux_cons_ok_neg hc).mp h
      simp [ih h2]

theorem updateColsAux_findCol_ne {n m : String} (hm : m ≠ n) {f : Col → Except PyErr Col}
    (hf : ∀ c c', f c = .ok c' → c'.name = c.name) :
    ∀ {cs cs' : List Col}, updateColsAux n f cs = .ok cs' →
      findColNamed m cs' = findColNamed m cs := by
  intro cs
  induction cs with
  | nil =>
    intro cs' h
    rw [updateColsAux_nil] at h
    injection h with h
    subst h
    rfl
  | cons c cs ih =>
    intro cs' h
    by_cases hc : c.name = n
    · obtain ⟨c', cs'', h1, h2, rfl⟩ := (updateColsAux_cons_ok_pos hc).mp h
      have hn : c'.name = c.name := hf c c' h1
      simp only [findColNamed, hn, hc]
      rw [if_neg (fun hx => hm hx.symm), if_neg (fun hx => hm hx.symm)]
      exact ih h2
    · obtain ⟨cs'', h2, rfl⟩ := (updateColsAux_cons_ok_neg hc).mp h
      simp only [findColNamed]
      by_cases hcm : c.name = m
      · simp [hcm]
      · simp only [hcm, if_false]
        exact ih h2

theorem updateColsAux_findCol_self {n : String} {f : Col → Except PyErr Col}
    (hf : ∀ c c', f c = .ok c' → c'.name = c.name) :
    ∀ {cs cs' : List Col} {c : Col}, updateColsAux n f cs = .ok cs' →
      findColNamed n cs = some c →
      ∃ c', f c = .ok c' ∧ findColNamed n cs' = some c' := by
  intro cs
  induction cs with
  | nil => intro cs' c h hfind; simp [findColNamed] at hfind
  | cons x cs ih =>
    intro cs' c h hfind
    by_cases hc : x.name = n
    · obtain ⟨c', cs'', h1, h2, rfl⟩ := (updateColsAux_cons_ok_pos hc).mp h
      simp only [findColNamed, hc, if_true, Option.some.injEq] at hfind
      subst hfind
      refine ⟨c', h1, ?_⟩
      simp [findColNamed, hf x c' h1, hc]
    · obtain ⟨cs'', h2, rfl⟩ := (updateColsAux_cons_ok_neg hc).mp h
      simp only [findColNamed, hc, if_false] at hfind
      obtain ⟨c', h1, h3⟩ := ih h2 hfind
      exact ⟨c', h1, by simp [findColNamed, hc, h3]⟩

theorem updateCol_ok_names {n : String} {f : Col → Except PyErr Col}
    (hf : ∀ c c', f c = .ok c' → c'.name = c.name) {t t' : Table}
    (h : updateCol n f t = .ok t') :
    tableNames t' = tableNames t ∧ t'.nrows = t.nrows := by
  simp only [updateCol] at h
  cases hm : updateColsAux n f t.cols with
  | error e => rw [hm] at h; simp at h
  | ok cs =>
    rw [hm] at h
    injection h with h
    subst h
    exact ⟨updateColsAux_names hf hm, rfl⟩

theorem updateCol_findCol_ne {n m : String} (hm : m ≠ n) {f : Col → Except PyErr Col}
    (hf : ∀ c c', f c = .ok c' → c'.name = c.name) {t t' : Table}
    (h : updateCol n f t = .ok t') :
    findColNamed m t'.cols = findColNamed m t.cols := by
  simp only [updateCol] at h
  cases hmm : updateColsAux n f t.cols with
  | error e => rw [hmm] at h; simp at h
  | ok cs =>
    rw [hmm] at h
    injection h with h
    subst h
    exact updateColsAux_findCol_ne hm hf hmm

theorem updateCol_findCol_self {n : String} {f : Col → Except PyErr Col}
    (hf : ∀ c c', f c = .ok c' → c'.name = c.name) {t t' : Table} {c : Col}
    (h : updateCol n f t = .ok t') (hfind : findColNamed n t.cols = some c) :
    ∃ c', f c = .ok c' ∧ findColNamed n t'.cols = some c' := by
  simp only [updateCol] at h
  cases hmm : updateColsAux n f t.cols with
  | error e => rw [hmm] at h; simp at h
  | ok cs =>
    rw [hmm] at h
    injection h with h
    subst h
    exact updateColsAux_findCol_self hf hmm hfind

theorem updateCol_ok_of_total {n : String} {f : Col → Except PyErr Col}
    (hf : ∀ c, ∃ c', f c = .ok c') (t : Table) :
    ∃ t', updateCol n f t = .ok t' := by
  obtain ⟨cs', hcs⟩ := @updateColsAux_ok_of_total n f hf t.cols
  exact ⟨{ t with cols := cs' }, by simp [updateCol, hcs]⟩

/-! Name preservation of the individual column casts. -/

theorem astypeCategory_name {c c' : Col} (h : astypeCategory c = .ok c') :
    c'.name = c.name := by
  simp only [astypeCategory] at h
  injection h with h
  subst h
  rfl

theorem toDatetimeCol_name {c c' : Col} (h : toDatetimeCol c = .ok c') :
    c'.name = c.name := by
  simp only [toDatetimeCol] at h
  cases hm : exMapM toDatetimeCell c.cells with
  | error e => rw [hm] at h; simp at h
  | ok cs => rw [hm] at h; injection h with h; subst h; rfl

theorem toTimedeltaCol_name {c c' : Col} (h : toTimedeltaCol c = .ok c') :
    c'.name = c.name := by
  simp only [toTimedeltaCol] at h
  cases hm : exMapM toTimedeltaMinutesCell c.cells with
  | error e => rw [hm] at h; simp at h
  | ok cs => rw [hm] at h; injection h with h; subst h; rfl

theorem roundCol_name {c c' : Col} (h : roundCol c = .ok c') :
    c'.name = c.name := by
  simp only [roundCol] at h
  cases hm : exMapM roundCell c.cells with
  | error e => rw [hm] at h; simp at h
  | ok cs => rw [hm] at h; injection h with h; subst h; rfl

theorem stripSpacesCol_name {c c' : Col} (h : stripSpacesCol c = .ok c') :
    c'.name = c.name := by
  simp only [stripSpacesCol] at h
  cases hm : exMapM stripSpacesCell c.cells with
  | error e => rw [hm] at h; simp at h
  | ok cs => rw [hm] at h; injection h with h; subst h; rfl

theorem astypeStrCol_name {c c' : Col} (h : astypeStrCol c = .ok c') :
    c'.name = c.name := by
  simp only [astypeStrCol] at h
  cases hm : exMapM astypeStrCell c.cells with
  | error e => rw [hm] at h; simp at h
  | ok cs => rw [hm] at h; injection h with h; subst h; rfl

theorem toIntCol_name {c c' : Col} (h : toIntCol c = .ok c') :
    c'.name = c.name := by
  simp only [toIntCol] at h
  cases hm : exMapM toIntCell c.cells with
  | error e => rw [hm] at h; simp at h
  | ok cs => rw [hm] at h; injection h with h; subst h; rfl

/-- Inversion of the exception-propagating sequencing. -/
theorem orRaise_ok {σ τ : Type} {x : Except (PyErr × Table) σ}
    {g : σ → Except (PyErr × Table) τ} {r : τ}
    (h : orRaise x g = .ok r) : ∃ v, x = .ok v ∧ g v = .ok r := by
  simp only [orRaise] at h
  cases x with
  | error e => simp at h
  | ok v => exact ⟨v, rfl, h⟩

/-- The sequencing raises exactly when one of its parts raises. -/
theorem orRaise_error {σ τ : Type} {x : Except (PyErr × Table) σ}
    {g : σ → Except (PyErr × Table) τ} {e : PyErr × Table}
    (h : orRaise x g = .error e) :
    x = .error e ∨ ∃ v, x = .ok v ∧ g v = .error e := by
  simp only [orRaise] at h
  cases x with
  | error e2 =>
    left
    simpa using h
  | ok v => exact .inr ⟨v, rfl, h⟩

theorem map_eq_self_of_forall {α : Type} {f : α → α} :
    ∀ {l : List α}, (∀ a ∈ l, f a = a) → l.map f = l := by
  intro l
  induction l with
  | nil => intro _; rfl
  | cons a as ih =>
    intro h
    rw [List.map_cons, h a (by simp), ih (fun x hx => h x (by simp [hx]))]

theorem map_congr_mem {α β : Type} {f g : α → β} :
    ∀ {l : List α}, (∀ a ∈ l, f a = g a) → l.map f = l.map g := by
  intro l
  induction l with
  | nil => intro _; rfl
  | cons a as ih =>
    intro h
    rw [List.map_cons, List.map_cons, h a (by simp), ih (fun x hx => h x (by simp [hx]))]

theorem nodup_map_of_inj_on {α β : Type} {f : α → β} :
    ∀ {l : List α}, (∀ x ∈ l, ∀ y ∈ l, f x = f y → x = y) → l.Nodup → (l.map f).Nodup := by
  intro l
  induction l with
  | nil => intro _ _; simp
  | cons a as ih =>
    intro hinj hnd
    rw [List.nodup_cons] at hnd
    rw [List.map_cons, List.nodup_cons]
    refine ⟨?_, ih (fun x hx y hy => hinj x (by simp [hx]) y (by simp [hy])) hnd.2⟩
    intro hmem
    obtain ⟨x, hx, hfx⟩ := List.mem_map.mp hmem
    have hax : a = x := hinj a (by simp) x (by simp [hx]) hfx.symm
    subst hax
    exact hnd.1 hx

theorem nodup_append_singleton {α : Type} {l : List α} {a : α} (hnd : l.Nodup)
    (ha : a ∉ l) : (l ++ [a]).Nodup := by
  induction l with
  | nil => simp
  | cons x xs ih =>
    rw [List.nodup_cons] at hnd
    rw [List.cons_append, List.nodup_cons]
    refine ⟨?_, ih hnd.2 (fun h => ha (by simp [h]))⟩
    intro hmem
    rcases List.mem_append.mp hmem with h | h
    · exact hnd.1 h
    · cases List.mem_singleton.mp h
      exact ha (by simp)

theorem hasCol_iff_mem_names {t : Table} {n : String} :
    hasCol t n = true ↔ n ∈ tableNames t := by
  simp only [hasCol, tableNames, List.any_eq_true, List.mem_map, beq_iff_eq]

/-! ### fix_typos: canonical form and idempotence -/

theorem renameCols_of_hasCol_false {src tgt : String} {t : Table}
    (h : hasCol t src = false) : renameCols src tgt t = t := by
  have hall : ∀ c ∈ t.cols, c.name ≠ src := by
    intro c hc
    have := List.any_eq_false.mp h c hc
    simpa using this
  simp only [renameCols]
  have hmap : t.cols.map (fun c => { c with name := renameName src tgt c.name }) = t.cols := by
    apply map_eq_self_of_forall
    intro c hc
    simp [renameName, hall c hc]
  rw [hmap]

theorem ite_renameCols (src tgt : String) (t : Table) :
    (if hasCol t src then renameCols src tgt t else t) = renameCols src tgt t := by
  split
  · rfl
  · rename_i h
    rw [renameCols_of_hasCol_false (by simpa using h)]

theorem fix_typos_core_eq (t : Table) :
    fix_typos_core t =
      { t with cols := t.cols.map (fun c => { c with name := canonTypoName c.name }) } := by
  simp only [fix_typos_core, ite_renameCols]
  simp only [renameCols, List.map_map]
  rfl

theorem canonTypoName_spec (s : String) :
    (s = "Intentity" ∧ canonTypoName s = "Intensity") ∨
    (s = "day" ∧ canonTypoName s = "Day") ∨
    (s = "time" ∧ canonTypoName s = "Time") ∨
    (s ≠ "Intentity" ∧ s ≠ "day" ∧ s ≠ "time" ∧ canonTypoName s = s) := by
  by_cases h1 : s = "Intentity"
  · subst h1; left; exact ⟨rfl, by decide⟩
  · by_cases h2 : s = "day"
    · subst h2; right; left; exact ⟨rfl, by decide⟩
    · by_cases h3 : s = "time"
      · subst h3; right; right; left; exact ⟨rfl, by decide⟩
      · right; right; right
        exact ⟨h1, h2, h3, by simp [canonTypoName, renameName, h1, h2, h3]⟩

theorem canonTypoName_idem (s : String) :
    canonTypoName (canonTypoName s) = canonTypoName s := by
  rcases canonTypoName_spec s with ⟨h, hc⟩ | ⟨h, hc⟩ | ⟨h, hc⟩ | ⟨h1, h2, h3, hc⟩ <;> rw [hc]
  · decide
  · decide
  · decide
  · exact hc

theorem fix_typos_names (t : Table) :
    tableNames (fix_typos_core t) = (tableNames t).map canonTypoName := by
  rw [fix_typos_core_eq]
  simp [tableNames, List.map_map]

/-! ### Column-name bookkeeping of the remaining filters -/

theorem substCol_name (m : List (String × List (String × String))) (c : Col) :
    (substCol m c).name = c.name := by
  simp only [substCol]
  split <;> rfl

theorem replaceTable_names (m : List (String × List (String × String))) (t : Table) :
    tableNames (replaceTable m t) = tableNames t := by
  simp only [replaceTable, tableNames, List.map_map]
  exact map_congr_mem (fun c _ => substCol_name m c)

theorem odour_names (t : Table) :
    tableNames (odour_literals_to_numbers_core t) = tableNames t := by
  simp only [odour_literals_to_numbers_core, replaceTable_names]

theorem appendEmptyCol_names (n : String) (t : Table) :
    tableNames (appendEmptyCol n t) = tableNames t ++ [n] := by
  simp [appendEmptyCol, tableNames]

theorem appendEmptyCol_nrows (n : String) (t : Table) :
    (appendEmptyCol n t).nrows = t.nrows := rfl

theorem hasCol_append_of (g : String) {t : Table} {f : String} (h : hasCol t f = true) :
    hasCol (appendEmptyCol g t) f = true := by
  rw [hasCol_iff_mem_names] at h ⊢
  rw [appendEmptyCol_names]
  exact List.mem_append_left _ h

theorem addFieldsAux_ok_cols :
    ∀ {l : List String} {t t' : Table}, addFieldsAux l t = .ok t' →
      t'.cols = t.cols ++ l.map (fun f => ⟨f, .obj, List.replicate t.nrows (.str "")⟩) ∧
      t'.nrows = t.nrows := by
  intro l
  induction l with
  | nil =>
    intro t t' h
    simp only [addFieldsAux] at h
    injection h with h
    subst h
    simp
  | cons f rest ih =>
    intro t t' h
    simp only [addFieldsAux] at h
    split at h
    · simp at h
    · obtain ⟨hcols, hn⟩ := ih h
      refine ⟨?_, by rw [hn]; rfl⟩
      rw [hcols]
      simp [appendEmptyCol, List.append_assoc]

theorem addFieldsAux_error_of_present :
    ∀ {l : List String} {t : Table}, (∃ f, f ∈ l ∧ hasCol t f = true) →
      ∀ t', addFieldsAux l t ≠ .ok t' := by
  intro l
  induction l with
  | nil =>
    rintro t ⟨f, hf, _⟩
    simp at hf
  | cons g rest ih =>
    rintro t ⟨f, hf, hpres⟩ t' h
    simp only [addFieldsAux] at h
    split at h
    · simp at h
    · rename_i hg
      rcases List.mem_cons.mp hf with rfl | hf2
      · exact hg hpres
      · exact ih ⟨f, hf2, hasCol_append_of g hpres⟩ t' h

theorem addFieldsAux_error_state :
    ∀ {l : List String} {t tp : Table} {e : PyErr}, addFieldsAux l t = .error (e, tp) →
      e = .schemaConflict ∧ tp.nrows = t.nrows ∧
      tp.cols.take t.cols.length = t.cols ∧
      ∀ c ∈ tp.cols, c ∈ t.cols ∨
        (c.name ∈ l ∧ c.dtype = .obj ∧ c.cells = List.replicate t.nrows (Cell.str "")) := by
  intro l
  induction l with
  | nil =>
    intro t tp e h
    simp [addFieldsAux] at h
  | cons f rest ih =>
    intro t tp e h
    simp only [addFieldsAux] at h
    split at h
    · injection h with h
      rw [Prod.mk.injEq] at h
      obtain ⟨he, ht⟩ := h
      subst he
      subst ht
      exact ⟨rfl, rfl, by simp, fun c hc => .inl hc⟩
    · obtain ⟨he, hn, htake, hmem⟩ := ih h
      have hnr : (appendEmptyCol f t).nrows = t.nrows := rfl
      have hcolsapp : (appendEmptyCol f t).cols = t.cols ++ [⟨f, .obj, List.replicate t.nrows (.str "")⟩] := rfl
      refine ⟨he, by rw [hn, hnr], ?_, ?_⟩
      · rw [hcolsapp] at htake
        have hlen : (t.cols ++ [(⟨f, .obj, List.replicate t.nrows (.str "")⟩ : Col)]).length
            = t.cols.length + 1 := by simp
        rw [hlen] at htake
        have hstep : tp.cols.take t.cols.length
            = (tp.cols.take (t.cols.length + 1)).take t.cols.length := by
          rw [List.take_take, min_eq_left (by omega)]
        rw [hstep, htake, List.take_left]
      · intro c hc
        rcases hmem c hc with hin | hnew
        · rw [hcolsapp] at hin
          rcases List.mem_append.mp hin with h1 | h2
          · exact .inl h1
          · cases List.mem_singleton.mp h2
            exact .inr ⟨by simp, rfl, rfl⟩
        · obtain ⟨hna, hdt, hce⟩ := hnew
          rw [hnr] at hce
          exact .inr ⟨by simp [hna], hdt, hce⟩

theorem addFieldsAux_ok_nodup :
    ∀ {l : List String} {t t' : Table}, addFieldsAux l t = .ok t' →
      (tableNames t).Nodup → (tableNames t').Nodup := by
  intro l
  induction l with
  | nil =>
    intro t t' h hnd
    simp only [addFieldsAux] at h
    injection h with h
    subst h
    exact hnd
  | cons f rest ih =>
    intro t t' h hnd
    simp only [addFieldsAux] at h
    split at h
    · simp at h
    · rename_i hc
      apply ih h
      rw [appendEmptyCol_names]
      apply nodup_append_singleton hnd
      intro hmem
      exact hc (hasCol_iff_mem_names.mpr hmem)

/-! ### type_casting bookkeeping -/

theorem castCategoryStep_names {column : String} {t t' : Table}
    (h : castCategoryStep column t = .ok t') :
    tableNames t' = tableNames t ∧ t'.nrows = t.nrows := by
  simp only [castCategoryStep] at h
  split at h
  · exact updateCol_ok_names (fun c c' hx => astypeCategory_name hx) h
  · injection h with h; subst h; exact ⟨rfl, rfl⟩

theorem castDatetimeStep_names {column : String} {t t' : Table}
    (h : castDatetimeStep column t = .ok t') :
    tableNames t' = tableNames t ∧ t'.nrows = t.nrows := by
  simp only [castDatetimeStep] at h
  split at h
  · exact updateCol_ok_names (fun c c' hx => toDatetimeCol_name hx) h
  · injection h with h; subst h; exact ⟨rfl, rfl⟩

theorem castTimedeltaStep_names {column : String} {t t' : Table}
    (h : castTimedeltaStep column t = .ok t') :
    tableNames t' = tableNames t ∧ t'.nrows = t.nrows := by
  simp only [castTimedeltaStep] at h
  split at h
  · obtain ⟨u, hu, hr⟩ := orRaise_ok h
    have h1 := updateCol_ok_names (fun c c' hx => toTimedeltaCol_name hx) hu
    have h2 := updateCol_ok_names (fun c c' hx => roundCol_name hx) hr
    exact ⟨h2.1.trans h1.1, h2.2.trans h1.2⟩
  · injection h with h; subst h; exact ⟨rfl, rfl⟩

theorem castIntStep_names {column : String} {t t' : Table}
    (h : castIntStep column t = .ok t') :
    tableNames t' = tableNames t ∧ t'.nrows = t.nrows := by
  simp only [castIntStep] at h
  split at h
  · obtain ⟨u1, hu1, h2⟩ := orRaise_ok h
    obtain ⟨u2, hu2, h3⟩ := orRaise_ok h2
    have k1 := updateCol_ok_names (fun c c' hx => stripSpacesCol_name hx) hu1
    have k2 := updateCol_ok_names (fun c c' hx => astypeStrCol_name hx) hu2
    have k3 := updateCol_ok_names (fun c c' hx => toIntCol_name hx) h3
    exact ⟨(k3.1.trans k2.1).trans k1.1, (k3.2.trans k2.2).trans k1.2⟩
  · injection h with h; subst h; exact ⟨rfl, rfl⟩

theorem castOne_names {column : String} {t t' : Table} (h : castOne column t = .ok t') :
    tableNames t' = tableNames t ∧ t'.nrows = t.nrows := by
  simp only [castOne] at h
  obtain ⟨t1, h1, h⟩ := orRaise_ok h
  obtain ⟨t2, h2, h⟩ := orRaise_ok h
  obtain ⟨t3, h3, h⟩ := orRaise_ok h
  have k1 := castCategoryStep_names h1
  have k2 := castDatetimeStep_names h2
  have k3 := castTimedeltaStep_names h3
  have k4 := castIntStep_names h
  exact ⟨((k4.1.trans k3.1).trans k2.1).trans k1.1,
         ((k4.2.trans k3.2).trans k2.2).trans k1.2⟩

theorem castLoop_names :
    ∀ {l : List String} {t t' : Table}, castLoop l t = .ok t' →
      tableNames t' = tableNames t ∧ t'.nrows = t.nrows := by
  intro l
  induction l with
  | nil =>
    intro t t' h
    simp only [castLoop] at h
    injection h with h
    subst h
    exact ⟨rfl, rfl⟩
  | cons n ns ih =>
    intro t t' h
    simp only [castLoop] at h
    obtain ⟨tm, h1, h2⟩ := orRaise_ok h
    have k1 := castOne_names h1
    have k2 := ih h2
    exact ⟨k2.1.trans k1.1, k2.2.trans k1.2⟩

theorem castLoop_append_ok :
    ∀ {xs ys : List String} {t t' : Table}, castLoop (xs ++ ys) t = .ok t' →
      ∃ tm, castLoop xs t = .ok tm ∧ castLoop ys tm = .ok t' := by
  intro xs
  induction xs with
  | nil => intro ys t t' h; exact ⟨t, rfl, h⟩
  | cons n ns ih =>
    intro ys t t' h
    simp only [List.cons_append, castLoop] at h
    obtain ⟨tm1, h1, h2⟩ := orRaise_ok h
    obtain ⟨tm, h3, h4⟩ := ih h2
    refine ⟨tm, ?_, h4⟩
    simp only [castLoop]
    rw [h1]
    exact h3

theorem castCategoryStep_findCol_ne {column m : String} (hm : m ≠ column) {t t' : Table}
    (h : castCategoryStep column t = .ok t') :
    findColNamed m t'.cols = findColNamed m t.cols := by
  simp only [castCategoryStep] at h
  split at h
  · exact updateCol_findCol_ne hm (fun c c' hx => astypeCategory_name hx) h
  · injection h with h; subst h; rfl

theorem castDatetimeStep_findCol_ne {column m : String} (hm : m ≠ column) {t t' : Table}
    (h : castDatetimeStep column t = .ok t') :
    findColNamed m t'.cols = findColNamed m t.cols := by
  simp only [castDatetimeStep] at h
  split at h
  · exact updateCol_findCol_ne hm (fun c c' hx => toDatetimeCol_name hx) h
  · injection h with h; subst h; rfl

theorem castTimedeltaStep_findCol_ne {column m : String} (hm : m ≠ column) {t t' : Table}
    (h : castTimedeltaStep column t = .ok t') :
    findColNamed m t'.cols = findColNamed m t.cols := by
  simp only [castTimedeltaStep] at h
  split at h
  · obtain ⟨u, hu, hr⟩ := orRaise_ok h
    rw [updateCol_findCol_ne hm (fun c c' hx => roundCol_name hx) hr,
        updateCol_findCol_ne hm (fun c c' hx => toTimedeltaCol_name hx) hu]
  · injection h with h; subst h; rfl

theorem castIntStep_findCol_ne {column m : String} (hm : m ≠ column) {t t' : Table}
    (h : castIntStep column t = .ok t') :
    findColNamed m t'.cols = findColNamed m t.cols := by
  simp only [castIntStep] at h
  split at h
  · obtain ⟨u1, hu1, h2⟩ := orRaise_ok h
    obtain ⟨u2, hu2, h3⟩ := orRaise_ok h2
    rw [updateCol_findCol_ne hm (fun c c' hx => toIntCol_name hx) h3,
        updateCol_findCol_ne hm (fun c c' hx => astypeStrCol_name hx) hu2,
        updateCol_findCol_ne hm (fun c c' hx => stripSpacesCol_name hx) hu1]
  · injection h with h; subst h; rfl

theorem castOne_findCol_ne {column m : String} (hm : m ≠ column) {t t' : Table}
    (h : castOne column t = .ok t') :
    findColNamed m t'.cols = findColNamed m t.cols := by
  simp only [castOne] at h
  obtain ⟨t1, h1, h⟩ := orRaise_ok h
  obtain ⟨t2, h2, h⟩ := orRaise_ok h
  obtain ⟨t3, h3, h⟩ := orRaise_ok h
  rw [castIntStep_findCol_ne hm h, castTimedeltaStep_findCol_ne hm h3,
      castDatetimeStep_findCol_ne hm h2, castCategoryStep_findCol_ne hm h1]

theorem castLoop_findCol_notMem {m : String} :
    ∀ {l : List String} {t t' : Table}, m ∉ l → castLoop l t = .ok t' →
      findColNamed m t'.cols = findColNamed m t.cols := by
  intro l
  induction l with
  | nil =>
    intro t t' _ h
    simp only [castLoop] at h
    injection h with h
    subst h
    rfl
  | cons n ns ih =>
    intro t t' hmem h
    simp only [castLoop] at h
    obtain ⟨tm, h1, h2⟩ := orRaise_ok h
    have hmn : m ≠ n := fun hx => hmem (by simp [hx])
    rw [ih (fun hx => hmem (by simp [hx])) h2, castOne_findCol_ne hmn h1]

/-! ### Inversion of the filter runner and of single casts -/

theorem runFiltersAux_cons_some {n : String} {rest : List String} {t st : Table}
    {res : Option Table × Table}
    (h : runFiltersAux (n :: rest) (some t) st = .ok res) :
    ∃ o, runStep n t = .ok o ∧ runFiltersAux rest o.ret o.state = .ok res := by
  simp only [runFiltersAux] at h
  exact orRaise_ok h

theorem runFiltersAux_cons_pure {n : String} {rest : List String} {t st u : Table}
    {res : Option Table × Table} (hstep : runStep n t = .ok ⟨some u, u⟩)
    (h : runFiltersAux (n :: rest) (some t) st = .ok res) :
    runFiltersAux rest (some u) u = .ok res := by
  obtain ⟨o, ho, h2⟩ := runFiltersAux_cons_some h
  rw [hstep] at ho
  injection ho with ho
  subst ho
  exact h2

theorem runStep_fix_typos (t : Table) : runStep "fix_typos" t = fix_typos t := rfl

theorem runStep_fix_userids (t : Table) : runStep "fix_userids" t = fix_userids t := rfl

theorem runStep_odour (t : Table) :
    runStep "odour_literals_to_numbers" t = odour_literals_to_numbers t := rfl

theorem runStep_add_analyst (t : Table) :
    runStep "add_analyst_fields" t = add_analyst_fields t := rfl

theorem runStep_type_casting (t : Table) : runStep "type_casting" t = type_casting t := rfl

theorem fix_typos_eq (t : Table) :
    fix_typos t = .ok ⟨some (fix_typos_core t), fix_typos_core t⟩ := rfl

theorem fix_userids_eq (t : Table) :
    fix_userids t = .ok ⟨some (fix_userids_core t), fix_userids_core t⟩ := rfl

theorem odour_eq (t : Table) :
    odour_literals_to_numbers t
      = .ok ⟨some (odour_literals_to_numbers_core t), odour_literals_to_numbers_core t⟩ := rfl

theorem type_casting_inv {t : Table} {res : FilterOutcome} (h : type_casting t = .ok res) :
    ∃ t5, castLoop (tableNames t) t = .ok t5 ∧ res = ⟨none, t5⟩ := by
  simp only [type_casting] at h
  obtain ⟨t5, h1, h2⟩ := orRaise_ok h
  injection h2 with h2
  exact ⟨t5, h1, h2.symm⟩

theorem add_analyst_fields_inv {t : Table} {res : FilterOutcome}
    (h : add_analyst_fields t = .ok res) :
    ∃ t4, addFieldsAux analystFields t = .ok t4 ∧ res = ⟨some t4, t4⟩ := by
  simp only [add_analyst_fields] at h
  obtain ⟨t4, h1, h2⟩ := orRaise_ok h
  injection h2 with h2
  exact ⟨t4, h1, h2.symm⟩

theorem castLoop_cons_ok {n : String} {ns : List String} {t t' : Table}
    (h : castLoop (n :: ns) t = .ok t') :
    ∃ tm, castOne n t = .ok tm ∧ castLoop ns tm = .ok t' := by
  simp only [castLoop] at h
  exact orRaise_ok h

theorem castOne_user_inv {t t' : Table} (h : castOne "User" t = .ok t') :
    updateCol "User" astypeCategory t = .ok t' := by
  have h0 : orRaise (updateCol "User" astypeCategory t)
      (fun t1 => (.ok t1 : Except (PyErr × Table) Table)) = .ok t' := h
  obtain ⟨v, hv, hok⟩ := orRaise_ok h0
  injection hok with hok
  subst hok
  exact hv

theorem castOne_duration_inv {t t' : Table} (h : castOne "Duration" t = .ok t') :
    ∃ t1 u, updateCol "Duration" astypeCategory t = .ok t1 ∧
      updateCol "Duration" toTimedeltaCol t1 = .ok u ∧
      updateCol "Duration" roundCol u = .ok t' := by
  have h0 : orRaise (updateCol "Duration" astypeCategory t) (fun t1 =>
      orRaise (orRaise (updateCol "Duration" toTimedeltaCol t1)
          (fun u => updateCol "Duration" roundCol u))
        (fun t3 => (.ok t3 : Except (PyErr × Table) Table))) = .ok t' := h
  obtain ⟨t1, h1, h0⟩ := orRaise_ok h0
  obtain ⟨t3, h3, h0⟩ := orRaise_ok h0
  obtain ⟨u, hu, hr⟩ := orRaise_ok h3
  injection h0 with h0
  subst h0
  exact ⟨t1, u, h1, hu, hr⟩

theorem astypeCategory_inv {c c' : Col} (h : astypeCategory c = .ok c') :
    c' = { c with dtype := .category } := by
  simp only [astypeCategory] at h
  injection h with h
  exact h.symm

theorem toTimedeltaCol_inv {c c' : Col} (h : toTimedeltaCol c = .ok c') :
    c'.name = c.name ∧ c'.dtype = .floatT ∧
    exMapM toTimedeltaMinutesCell c.cells = .ok c'.cells := by
  simp only [toTimedeltaCol] at h
  cases hm : exMapM toTimedeltaMinutesCell c.cells with
  | error e => rw [hm] at h; simp at h
  | ok cs =>
    rw [hm] at h
    injection h with h
    subst h
    exact ⟨rfl, rfl, rfl⟩

theorem roundCol_inv {c c' : Col} (h : roundCol c = .ok c') :
    c'.name = c.name ∧ c'.dtype = c.dtype ∧ exMapM roundCell c.cells = .ok c'.cells := by
  simp only [roundCol] at h
  cases hm : exMapM roundCell c.cells with
  | error e => rw [hm] at h; simp at h
  | ok cs =>
    rw [hm] at h
    injection h with h
    subst h
    exact ⟨rfl, rfl, rfl⟩

/-! ### File-type autodetection lemmas -/

theorem mem_of_mem_dropWhile {α : Type} {p : α → Bool} {a : α} :
    ∀ {l : List α}, a ∈ l.dropWhile p → a ∈ l := by
  intro l
  induction l with
  | nil => intro h; simp at h
  | cons x xs ih =>
    intro h
    simp only [List.dropWhile] at h
    cases hp : p x with
    | true => rw [hp] at h; exact List.mem_cons_of_mem _ (ih h)
    | false => rw [hp] at h; exact h

theorem contains_eq_false_of_not_mem {a : Char} {l : List Char} (h : a ∉ l) :
    l.contains a = false := by
  cases hc : l.contains a with
  | false => rfl
  | true =>
    exfalso
    exact h (by simpa using hc)

theorem extOf_of_no_dot {b : String} (h : ('.') ∉ b.toList) : extOf b = "" := by
  have hrest : ('.') ∉ b.toList.dropWhile (fun ch => ch = '.') :=
    fun hx => h (mem_of_mem_dropWhile hx)
  simp only [extOf]
  rw [if_neg]
  rw [contains_eq_false_of_not_mem hrest]
  simp

theorem autoFileType_of_ext_empty {fn : String} (h : pySplitextExt fn = "") :
    autoFileType fn = .error .indexError := by
  simp only [autoFileType, h]
  rfl

theorem autoFileType_ok_String (fn : String) {tname : List Char}
    (h : (splitOnChar '.' (pySplitextExt fn).toList)[1]? = some tname) :
    autoFileType fn = .ok (String.mk tname) := by
  simp only [autoFileType, h]

theorem autoFileType_error {fn : String} {e : PyErr} (h : autoFileType fn = .error e) :
    e = .indexError := by
  simp only [autoFileType] at h
  cases hg : (splitOnChar '.' (pySplitextExt fn).toList)[1]? with
  | none =>
    rw [hg] at h
    injection h with h
    exact h.symm
  | some s => rw [hg] at h; simp at h

theorem autoFileType_ok_ext {fn s : String} (h : autoFileType fn = .ok s) :
    pySplitextExt fn ≠ "" := by
  intro hext
  rw [autoFileType_of_ext_empty hext] at h
  simp at h

theorem resolveFileType_auto_eq (fn : String) :
    resolveFileType fn "auto"
      = (match autoFileType fn with
         | .error e => (.error e : Except PyErr String)
         | .ok ft =>
           if ft = "csv" then .ok "csv"
           else if ft = "xlsx" ∨ ft = "xls" then .ok ft
           else .error .unsupportedFormat) := rfl

theorem resolveFileType_auto_of_index {fn : String}
    (h : autoFileType fn = .error .indexError) :
    resolveFileType fn "auto" = .error .indexError := by
  rw [resolveFileType_auto_eq, h]

theorem resolveFileType_auto_unsupported {fn : String}
    (h : resolveFileType fn "auto" = .error .unsupportedFormat) :
    ∃ ft, autoFileType fn = .ok ft ∧ ft ≠ "csv" ∧ ft ≠ "xlsx" ∧ ft ≠ "xls" := by
  rw [resolveFileType_auto_eq] at h
  cases ha : autoFileType fn with
  | error e =>
    have he := autoFileType_error ha
    subst he
    rw [ha] at h
    simp at h
  | ok ft =>
    rw [ha] at h
    replace h : (if ft = "csv" then (.ok "csv" : Except PyErr String)
        else if ft = "xlsx" ∨ ft = "xls" then .ok ft
        else .error .unsupportedFormat) = .error .unsupportedFormat := h
    split_ifs at h with hcsv hxl
    push_neg at hxl
    exact ⟨ft, rfl, hcsv, hxl.1, hxl.2⟩

/-! ### Injectivity of the typo rename on conflict-free tables -/

theorem hasCol_false_iff_names {t : Table} {n : String} :
    hasCol t n = false ↔ n ∉ tableNames t := by
  constructor
  · intro h hmem
    exact absurd (hasCol_iff_mem_names.mpr hmem) (by simp [h])
  · intro h
    cases hc : hasCol t n with
    | false => rfl
    | true => exact absurd (hasCol_iff_mem_names.mp hc) h

theorem canon_inj_on_names {names : List String}
    (h1 : "Intentity" ∉ names ∨ "Intensity" ∉ names)
    (h2 : "day" ∉ names ∨ "Day" ∉ names)
    (h3 : "time" ∉ names ∨ "Time" ∉ names) :
    ∀ x ∈ names, ∀ y ∈ names, canonTypoName x = canonTypoName y → x = y := by
  intro x hx y hy hxy
  rcases canonTypoName_spec x with ⟨e1, c1⟩ | ⟨e1, c1⟩ | ⟨e1, c1⟩ | ⟨e1, e2, e3, c1⟩ <;>
    rcases canonTypoName_spec y with ⟨f1, d1⟩ | ⟨f1, d1⟩ | ⟨f1, d1⟩ | ⟨f1, f2, f3, d1⟩ <;>
      rw [c1, d1] at hxy <;>
        simp_all

theorem canon_eq_user {s : String} (h : canonTypoName s = "User") : s = "User" := by
  rcases canonTypoName_spec s with ⟨e, c⟩ | ⟨e, c⟩ | ⟨e, c⟩ | ⟨e1, e2, e3, c⟩
  · rw [c] at h; exact absurd h (by decide)
  · rw [c] at h; exact absurd h (by decide)
  · rw [c] at h; exact absurd h (by decide)
  · rw [c] at h; exact h

/-! ### Claim C8 -/

/-- C8: `fix_typos` is idempotent — applying it twice yields the same
table as applying it once (and hence the filter call on an already-fixed
table returns the same outcome). -/
theorem fix_typos_idempotent :
    ∀ t : Table, fix_typos_core (fix_typos_core t) = fix_typos_core t ∧
      fix_typos (fix_typos_core t) = fix_typos t := by
  intro t
  have h : fix_typos_core (fix_typos_core t) = fix_typos_core t := by
    rw [fix_typos_core_eq t, fix_typos_core_eq, List.map_map]
    congr 1
    apply map_congr_mem
    intro c _
    simp [Function.comp, canonTypoName_idem]
  exact ⟨h, by simp [fix_typos, h]⟩

/-! ### Claim C7 -/

/-- C7 (amended): on a table with pairwise-distinct column names, every
filter preserves name uniqueness, provided no rename target is already
present alongside its typo source; with both `Intentity` and `Intensity`
present, `fix_typos` produces duplicate names (see the counterexample). -/
theorem filters_preserve_unique_names :
    ∀ t : Table,
      (tableNames t).Nodup →
      (hasCol t "Intentity" = false ∨ hasCol t "Intensity" = false) →
      (hasCol t "day" = false ∨ hasCol t "Day" = false) →
      (hasCol t "time" = false ∨ hasCol t "Time" = false) →
      (tableNames (fix_typos_core t)).Nodup ∧
      (tableNames (fix_userids_core t)).Nodup ∧
      (tableNames (odour_literals_to_numbers_core t)).Nodup ∧
      (∀ t', addFieldsAux analystFields t = .ok t' → (tableNames t').Nodup) ∧
      (∀ res, type_casting t = .ok res → (tableNames res.state).Nodup) := by
  intro t hnd p1 p2 p3
  have q1 : "Intentity" ∉ tableNames t ∨ "Intensity" ∉ tableNames t := by
    rcases p1 with h | h
    · exact .inl (hasCol_false_iff_names.mp h)
    · exact .inr (hasCol_false_iff_names.mp h)
  have q2 : "day" ∉ tableNames t ∨ "Day" ∉ tableNames t := by
    rcases p2 with h | h
    · exact .inl (hasCol_false_iff_names.mp h)
    · exact .inr (hasCol_false_iff_names.mp h)
  have q3 : "time" ∉ tableNames t ∨ "Time" ∉ tableNames t := by
    rcases p3 with h | h
    · exact .inl (hasCol_false_iff_names.mp h)
    · exact .inr (hasCol_false_iff_names.mp h)
  refine ⟨?_, ?_, ?_, ?_, ?_⟩
  · rw [fix_typos_names]
    exact nodup_map_of_inj_on (canon_inj_on_names q1 q2 q3) hnd
  · simp only [fix_userids_core]
    split
    · exact hnd
    · rename_i hu
      rw [appendEmptyCol_names]
      exact nodup_append_singleton hnd (fun hmem => hu (hasCol_iff_mem_names.mpr hmem))
  · rw [odour_names]
    exact hnd
  · intro t' h'
    exact addFieldsAux_ok_nodup h' hnd
  · intro res hres
    obtain ⟨t5, hcast, hres2⟩ := type_casting_inv hres
    subst hres2
    have := (castLoop_names hcast).1
    simp only [FilterOutcome.state]
    rw [this]
    exact hnd

/-- C7 counterexample: on a table carrying both `Intentity` and
`Intensity`, `fix_typos` yields duplicate column names, so the claim as
stated (uniqueness preserved for every table, that one included) fails. -/
theorem fix_typos_duplicate_names_cex :
    (tableNames typoSample).Nodup ∧ ¬(tableNames (fix_typos_core typoSample)).Nodup := by
  constructor
  · decide
  · decide

/-- C7 witness at a concrete conflict-free table. -/
theorem filters_preserve_unique_names_witness :
    (tableNames (fix_typos_core typoWitnessSample)).Nodup ∧
    (tableNames (fix_userids_core typoWitnessSample)).Nodup ∧
    (tableNames (odour_literals_to_numbers_core typoWitnessSample)).Nodup := by
  have h := filters_preserve_unique_names typoWitnessSample
    (by decide) (by decide) (by decide) (by decide)
  exact ⟨h.1, h.2.1, h.2.2.1⟩

theorem substCol_cells (m : List (String × List (String × String))) (c : Col) :
    (substCol m c).cells
      = match m.lookup c.name with
        | some d => c.cells.map (substCell d)
        | none => c.cells := by
  simp only [substCol]
  split <;> rfl

/-! ### Claim C1 -/

/-- C1 (code bug): the in-place effect of `type_casting` on this
one-column table preserves the row count, but the Python function has no
`return` statement — its return value is `None`, not a table with the
same row count as the claim requires of every filter. -/
theorem type_casting_returns_none :
    type_casting zoneSample = .ok ⟨none, zoneSampleOut⟩ ∧
    zoneSampleOut.nrows = zoneSample.nrows := by
  exact ⟨by decide, rfl⟩

/-! ### Claim C2 -/

/-- C2 (amended): when any of the five analyst fields is already present
the run fails with `SchemaConflict`, the pre-existing columns survive
unchanged as a prefix of the partial state, but the fields preceding the
first conflicting one in the fixed order have already been added (blank)
by the failing call — the table is not left unchanged. -/
theorem add_analyst_conflict_partial_state :
    ∀ t : Table, (∃ f, f ∈ analystFields ∧ hasCol t f = true) →
      (∀ t', addFieldsAux analystFields t ≠ .ok t') ∧
      (∀ e tp, addFieldsAux analystFields t = .error (e, tp) →
        e = .schemaConflict ∧ tp.nrows = t.nrows ∧
        tp.cols.take t.cols.length = t.cols ∧
        ∀ c ∈ tp.cols, c ∈ t.cols ∨
          (c.name ∈ analystFields ∧ c.dtype = .obj ∧
           c.cells = List.replicate t.nrows (Cell.str ""))) := by
  intro t hex
  exact ⟨addFieldsAux_error_of_present hex, fun e tp h => addFieldsAux_error_state h⟩

/-- C2 counterexample: on a table whose only column is `Analystcomments`,
the failing `add_analyst_fields` call has already added four columns, so
the table is not left unchanged as the claim states. -/
theorem add_analyst_mutates_on_failure_cex :
    addFieldsAux analystFields analystSample = .error (.schemaConflict, analystSampleOut) ∧
    analystSampleOut.cols.length ≠ analystSample.cols.length := by
  exact ⟨by decide, by decide⟩

/-- C2 witness at the concrete conflicting table. -/
theorem add_analyst_conflict_partial_state_witness :
    hasCol analystSample "Analystcomments" = true ∧
    analystSampleOut.cols.take analystSample.cols.length = analystSample.cols ∧
    ((⟨"Typeoverride", .obj, [Cell.str ""]⟩ : Col) ∈ analystSample.cols ∨
      ((⟨"Typeoverride", .obj, [Cell.str ""]⟩ : Col).name ∈ analystFields ∧
       (⟨"Typeoverride", .obj, [Cell.str ""]⟩ : Col).dtype = .obj ∧
       (⟨"Typeoverride", .obj, [Cell.str ""]⟩ : Col).cells
         = List.replicate analystSample.nrows (Cell.str ""))) := by
  have h := add_analyst_conflict_partial_state analystSample
    ⟨"Analystcomments", by decide, by decide⟩
  have h2 := h.2 .schemaConflict analystSampleOut (by decide)
  exact ⟨by decide, h2.2.2.1, h2.2.2.2 ⟨"Typeoverride", .obj, [Cell.str ""]⟩ (by decide)⟩

/-! ### Claim C4 -/

/-- C4: on an `Annoy` column holding the three example values, the
recoding filter yields `-1` (main nine-level mapping), `-3` (the
Annoy-only correction of the mis-spelled label, applied after the main
substitution) and `0` (empty string to the neutral code). -/
theorem annoy_recode_example :
    ∀ (t : Table) (c : Col),
      findColNamed "Annoy" t.cols = some c →
      c.cells = [Cell.str "Slightly unpleasant", Cell.str "Moderate unpleasant", Cell.str ""] →
      (findColNamed "Annoy" (odour_literals_to_numbers_core t).cols).map Col.cells
        = some [Cell.str "-1", Cell.str "-3", Cell.str "0"] := by
  intro t c hfind hcells
  have hname := findColNamed_some_name hfind
  have h1 : findColNamed "Annoy" (odour_literals_to_numbers_core t).cols
      = some (substCol [("Annoy", bastard_tone_mapping)]
          (substCol intensity_and_annoy_mapping c)) := by
    simp only [odour_literals_to_numbers_core, replaceTable]
    rw [findColNamed_map (substCol_name _) _ _, findColNamed_map (substCol_name _) _ _, hfind]
    rfl
  have hc1 : (substCol intensity_and_annoy_mapping c).cells
      = c.cells.map (substCell annoy_mapping) := by
    rw [substCol_cells, hname]
    rfl
  have hc2 : (substCol [("Annoy", bastard_tone_mapping)]
        (substCol intensity_and_annoy_mapping c)).cells
      = (substCol intensity_and_annoy_mapping c).cells.map
          (substCell bastard_tone_mapping) := by
    rw [substCol_cells, substCol_name, hname]
    rfl
  rw [h1]
  show some ((substCol [("Annoy", bastard_tone_mapping)]
      (substCol intensity_and_annoy_mapping c)).cells) = _
  rw [hc2, hc1, hcells]
  decide

/-- C4 witness at the concrete three-row table. -/
theorem annoy_recode_example_witness :
    findColNamed "Annoy" annoySample.cols
      = some ⟨"Annoy", .obj,
          [Cell.str "Slightly unpleasant", Cell.str "Moderate unpleasant", Cell.str ""]⟩ ∧
    (findColNamed "Annoy" (odour_literals_to_numbers_core annoySample).cols).map Col.cells
      = some [Cell.str "-1", Cell.str "-3", Cell.str "0"] := by
  refine ⟨by decide, ?_⟩
  exact annoy_recode_example annoySample
    ⟨"Annoy", .obj,
      [Cell.str "Slightly unpleasant", Cell.str "Moderate unpleasant", Cell.str ""]⟩
    (by decide) (by decide)

/-! ### Claim C5 -/

/-- C5 (amended): a request containing an unregistered filter name fails
with `UnknownFilter` before any filter executes (the table is handed back
untouched), and the error lists the five available filter names; but the
error value is a constant of the request — it does not name the offending
entries. -/
theorem unknown_filter_rejects_before_running :
    ∀ (l : List String) (t : Table),
      (∃ f, f ∈ l ∧ f ∉ availableFilters) →
      mkFilterProvider l t = .error (.unknownFilter availableFilters, t) ∧
      availableFilters = ["add_analyst_fields", "fix_typos", "fix_userids",
        "odour_literals_to_numbers", "type_casting"] := by
  rintro l t ⟨f, hf, hna⟩
  have hcond : ¬(l.all (fun g => availableFilters.contains g) = true) := by
    intro hall
    have hc := List.all_eq_true.mp hall f hf
    exact hna (by simpa using hc)
  refine ⟨?_, rfl⟩
  simp only [mkFilterProvider, if_neg hcond]

/-- C5 counterexample: for the request `["fix_typos", "bogus_filter"]`
the raised error carries the fixed message text and the available set
only — `"bogus_filter"` is not among the names the error reports, so the
error does not name the offending entry. -/
theorem unknown_filter_message_cex :
    mkFilterProvider ["fix_typos", "bogus_filter"] emptySample
      = .error (.unknownFilter availableFilters, emptySample) ∧
    "bogus_filter" ∉ availableFilters := by
  exact ⟨by decide, by decide⟩

/-- C5 witness at a concrete bad request. -/
theorem unknown_filter_rejects_witness :
    mkFilterProvider ["bogus"] emptySample
      = .error (.unknownFilter availableFilters, emptySample) ∧
    availableFilters = ["add_analyst_fields", "fix_typos", "fix_userids",
      "odour_literals_to_numbers", "type_casting"] := by
  exact unknown_filter_rejects_before_running ["bogus"] emptySample
    ⟨"bogus", by decide, by decide⟩

/-! ### Claim C6 -/

/-- C6 (code bug): on a config file whose content is `42`, `eval`
succeeds (no `SyntaxError`), so `get` returns the integer 42 — a
non-dictionary — instead of failing with `ConfigMalformed` as the
loader's own comment ("Checks if valid dict or causes SyntaxError")
and the claim require. -/
theorem mapconfig_eval_accepts_non_dict :
    ocMapConfigGet badConfFiles "mapconf" "badconf" = .ok (.int 42) := by
  decide

/-! ### Claim C10 -/

/-- C10: under the `auto` type hint, a path whose basename contains no
dot raises the out-of-range indexing error from the extension-splitting
subscript (not `UnsupportedFormat`); the `UnsupportedFormat` branch is
reachable only when the path has a nonempty extension whose detected
type is outside csv / xlsx / xls. -/
theorem auto_detection_index_error :
    (∀ file_name : String, ('.') ∉ (pyBasename file_name).toList →
      resolveFileType file_name "auto" = .error .indexError) ∧
    (∀ file_name ft : String,
      resolveFileType file_name "auto" = .error .unsupportedFormat →
      pySplitextExt file_name ≠ "" ∧
      (autoFileType file_name = .ok ft →
        ft ≠ "csv" ∧ ft ≠ "xlsx" ∧ ft ≠ "xls")) := by
  constructor
  · intro fn h
    exact resolveFileType_auto_of_index (autoFileType_of_ext_empty (extOf_of_no_dot h))
  · intro fn ft h
    obtain ⟨ft2, hok, hc, hx1, hx2⟩ := resolveFileType_auto_unsupported h
    refine ⟨autoFileType_ok_ext hok, ?_⟩
    intro hft
    rw [hok] at hft
    injection hft with hft
    subst hft
    exact ⟨hc, hx1, hx2⟩

/-- C10 witness at two concrete paths. -/
theorem auto_detection_index_error_witness :
    ('.') ∉ (pyBasename "data/odourfile").toList ∧
    resolveFileType "data/odourfile" "auto" = .error .indexError ∧
    pySplitextExt "a.txt" ≠ "" ∧
    ("txt" ≠ "csv" ∧ "txt" ≠ "xlsx" ∧ "txt" ≠ "xls") := by
  refine ⟨by decide, ?_, ?_, ?_⟩
  · exact auto_detection_index_error.1 "data/odourfile" (by decide)
  · exact (auto_detection_index_error.2 "a.txt" "txt" (by decide)).1
  · exact (auto_detection_index_error.2 "a.txt" "txt" (by decide)).2 (by decide)

theorem castLoop_process_unique {m : String} {names1 names2 : List String}
    (h1 : m ∉ names1) (h2 : m ∉ names2) {t t' : Table}
    (h : castLoop (names1 ++ m :: names2) t = .ok t') :
    ∃ ta tb, castLoop names1 t = .ok ta ∧ castOne m ta = .ok tb ∧
      findColNamed m ta.cols = findColNamed m t.cols ∧
      findColNamed m t'.cols = findColNamed m tb.cols := by
  obtain ⟨ta, hA, hrest⟩ := castLoop_append_ok h
  obtain ⟨tb, hB, hC⟩ := castLoop_cons_ok hrest
  exact ⟨ta, tb, hA, hB, castLoop_findCol_notMem h1 hA, castLoop_findCol_notMem h2 hC⟩

theorem not_mem_right_of_nodup_middle {α : Type} {a : α} :
    ∀ {l1 l2 : List α}, (l1 ++ a :: l2).Nodup → a ∉ l2 := by
  intro l1
  induction l1 with
  | nil =>
    intro l2 h
    rw [List.nil_append] at h
    exact (List.nodup_cons.mp h).1
  | cons x xs ih =>
    intro l2 h
    rw [List.cons_append, List.nodup_cons] at h
    exact ih h.2

theorem findColNamed_odour (n : String) {t : Table} {c : Col}
    (hfind : findColNamed n t.cols = some c) :
    findColNamed n (odour_literals_to_numbers_core t).cols
      = some (substCol [("Annoy", bastard_tone_mapping)]
          (substCol intensity_and_annoy_mapping c)) := by
  simp only [odour_literals_to_numbers_core, replaceTable]
  rw [findColNamed_map (substCol_name _) _ _, findColNamed_map (substCol_name _) _ _, hfind]
  rfl

/-! ### Claim C9 -/

/-- C9: running the Observation profile's full ordered filter list on a
table lacking a `User` column yields (on success) a table in which a
`User` column exists, holds empty text in every row, and is tagged
categorical. -/
theorem observation_run_adds_categorical_user :
    ∀ (t : Table) (res : Option Table × Table),
      hasCol t "User" = false →
      mkFilterProvider observationFilters t = .ok res →
      (findColNamed "User" res.2.cols).map Col.dtype = some DType.category ∧
      (findColNamed "User" res.2.cols).map Col.cells
        = some (List.replicate t.nrows (Cell.str "")) := by
  intro t res hU hrun
  -- unfold the runner on the validated observation list
  have h0 : runFiltersAux ["fix_typos", "fix_userids", "odour_literals_to_numbers",
      "add_analyst_fields", "type_casting"] (some t) t = .ok res := hrun
  have hs1 : runStep "fix_typos" t = .ok ⟨some (fix_typos_core t), fix_typos_core t⟩ := rfl
  have h1 := runFiltersAux_cons_pure hs1 h0
  have hs2 : runStep "fix_userids" (fix_typos_core t)
      = .ok ⟨some (fix_userids_core (fix_typos_core t)),
             fix_userids_core (fix_typos_core t)⟩ := rfl
  have h2 := runFiltersAux_cons_pure hs2 h1
  have hs3 : runStep "odour_literals_to_numbers" (fix_userids_core (fix_typos_core t))
      = .ok ⟨some (odour_literals_to_numbers_core (fix_userids_core (fix_typos_core t))),
             odour_literals_to_numbers_core (fix_userids_core (fix_typos_core t))⟩ := rfl
  have h3 := runFiltersAux_cons_pure hs3 h2
  obtain ⟨o4, ho4, h5⟩ := runFiltersAux_cons_some h3
  rw [runStep_add_analyst] at ho4
  obtain ⟨t4, hadd, ho4eq⟩ := add_analyst_fields_inv ho4
  subst ho4eq
  replace h5 : runFiltersAux ["type_casting"] (some t4) t4 = .ok res := h5
  obtain ⟨o5, ho5, h6⟩ := runFiltersAux_cons_some h5
  rw [runStep_type_casting] at ho5
  obtain ⟨t5, hcast, ho5eq⟩ := type_casting_inv ho5
  subst ho5eq
  replace h6 : (Except.ok ((none : Option Table), t5)
      : Except (PyErr × Table) (Option Table × Table)) = .ok res := h6
  injection h6 with h6
  subst h6
  -- the User column is absent after fix_typos, then injected blank
  have hUnot1 : "User" ∉ (tableNames t).map canonTypoName := by
    intro hmem
    obtain ⟨s, hs, hcan⟩ := List.mem_map.mp hmem
    cases canon_eq_user hcan
    exact absurd (hasCol_iff_mem_names.mpr hs) (by simp [hU])
  have hU1 : hasCol (fix_typos_core t) "User" = false := by
    rw [hasCol_false_iff_names, fix_typos_names]
    exact hUnot1
  have huserids : fix_userids_core (fix_typos_core t)
      = appendEmptyCol "User" (fix_typos_core t) := by
    simp [fix_userids_core, hU1]
  have hnr1 : (fix_typos_core t).nrows = t.nrows := by rw [fix_typos_core_eq]
  have hfind2 : findColNamed "User" (fix_userids_core (fix_typos_core t)).cols
      = some ⟨"User", .obj, List.replicate t.nrows (Cell.str "")⟩ := by
    rw [huserids]
    show findColNamed "User" ((fix_typos_core t).cols
      ++ [⟨"User", .obj, List.replicate (fix_typos_core t).nrows (Cell.str "")⟩]) = _
    rw [findColNamed_append_of_none (hasCol_false_iff.mp hU1), hnr1]
    simp [findColNamed]
  -- the recoding filter leaves the User column untouched
  have hfind3 : findColNamed "User"
      (odour_literals_to_numbers_core (fix_userids_core (fix_typos_core t))).cols
      = some ⟨"User", .obj, List.replicate t.nrows (Cell.str "")⟩ := by
    rw [findColNamed_odour "User" hfind2]
    rfl
  -- the analyst extension appends after it
  obtain ⟨hcols4, hnr4⟩ := addFieldsAux_ok_cols hadd
  have hfind4 : findColNamed "User" t4.cols
      = some ⟨"User", .obj, List.replicate t.nrows (Cell.str "")⟩ := by
    rw [hcols4]
    exact findColNamed_append_of_some hfind3 _
  -- the casting loop processes the unique User column once
  have hn3 : tableNames (odour_literals_to_numbers_core (fix_userids_core (fix_typos_core t)))
      = (tableNames t).map canonTypoName ++ ["User"] := by
    rw [odour_names, huserids, appendEmptyCol_names, fix_typos_names]
  have hn4 : tableNames t4
      = (tableNames t).map canonTypoName ++ "User" :: analystFields := by
    have : tableNames t4
        = tableNames (odour_literals_to_numbers_core (fix_userids_core (fix_typos_core t)))
            ++ analystFields := by
      simp only [tableNames, hcols4, List.map_append, List.map_map]
      congr 1
    rw [this, hn3, List.append_assoc]
    rfl
  have hloop : castLoop ((tableNames t).map canonTypoName ++ "User" :: analystFields) t4
      = .ok t5 := by
    rw [← hn4]
    exact hcast
  obtain ⟨ta, tb, hA, hB, hfa, hfb⟩ :=
    castLoop_process_unique hUnot1 (by decide) hloop
  have hfindta : findColNamed "User" ta.cols
      = some ⟨"User", .obj, List.replicate t.nrows (Cell.str "")⟩ := by
    rw [hfa, hfind4]
  obtain ⟨c', hcat, hfindtb⟩ :=
    updateCol_findCol_self (fun c c' hx => astypeCategory_name hx) (castOne_user_inv hB) hfindta
  have hc' := astypeCategory_inv hcat
  subst hc'
  have hfinal : findColNamed "User" t5.cols
      = some ⟨"User", .category, List.replicate t.nrows (Cell.str "")⟩ := by
    rw [hfb, hfindtb]
  show (findColNamed "User" t5.cols).map Col.dtype = _ ∧
    (findColNamed "User" t5.cols).map Col.cells = _
  rw [hfinal]
  exact ⟨rfl, rfl⟩

/-- C9 witness at a concrete one-column observation table. -/
theorem observation_run_adds_categorical_user_witness :
    hasCol obsSample "User" = false ∧
    (findColNamed "User" ((none : Option Table), obsSampleOut).2.cols).map Col.dtype
      = some DType.category ∧
    (findColNamed "User" ((none : Option Table), obsSampleOut).2.cols).map Col.cells
      = some (List.replicate obsSample.nrows (Cell.str "")) := by
  have h := observation_run_adds_categorical_user obsSample (none, obsSampleOut)
    (by decide) (by decide)
  exact ⟨by decide, h.1, h.2⟩

/-! ### Claim C3 -/

/-- C3: a `Duration` cell holding `"Punctual odor"` is recoded to
`"00:05:00"` by `odour_literals_to_numbers`, and a subsequent successful
`type_casting` stores it as the number 5 (a count of whole minutes, held
in a float-typed column): the duration coercion, not the categorical
tagging applied just before it, is the representation that takes
effect. -/
theorem duration_punctual_recode_and_cast :
    ∀ (t : Table) (c : Col) (i : Nat),
      (tableNames t).Nodup →
      findColNamed "Duration" t.cols = some c →
      c.cells[i]? = some (Cell.str "Punctual odor") →
      ((findColNamed "Duration" (odour_literals_to_numbers_core t).cols).bind
          (fun c2 => c2.cells[i]?)) = some (Cell.str "00:05:00") ∧
      (∀ res : FilterOutcome,
        type_casting (odour_literals_to_numbers_core t) = .ok res →
        ((findColNamed "Duration" res.state.cols).bind (fun c3 => c3.cells[i]?))
            = some (Cell.fl ⟨5, 1⟩) ∧
        (findColNamed "Duration" res.state.cols).map Col.dtype = some DType.floatT) := by
  intro t c i hnd hfind hcell
  have hname := findColNamed_some_name hfind
  have hfind1 := findColNamed_odour "Duration" hfind
  have hcA : (substCol intensity_and_annoy_mapping c).cells
      = c.cells.map (substCell duration_mapping) := by
    rw [substCol_cells, hname]
    rfl
  have hcB : (substCol [("Annoy", bastard_tone_mapping)]
        (substCol intensity_and_annoy_mapping c)).cells
      = (substCol intensity_and_annoy_mapping c).cells := by
    rw [substCol_cells, substCol_name, hname]
    rfl
  have hc2cell : (substCol [("Annoy", bastard_tone_mapping)]
        (substCol intensity_and_annoy_mapping c)).cells[i]?
      = some (Cell.str "00:05:00") := by
    rw [hcB, hcA, List.getElem?_map, hcell]
    rfl
  constructor
  · rw [hfind1]
    exact hc2cell
  · intro res hres
    obtain ⟨t5, hcast, hres2⟩ := type_casting_inv hres
    subst hres2
    -- split the loop at the unique Duration column
    obtain ⟨as, bs, hsplit, has⟩ := findColNamed_some_split hfind1
    have hnamec2 : (substCol [("Annoy", bastard_tone_mapping)]
        (substCol intensity_and_annoy_mapping c)).name = "Duration" := by
      rw [substCol_name, substCol_name, hname]
    have hnamesplit : tableNames (odour_literals_to_numbers_core t)
        = as.map Col.name ++ "Duration" :: bs.map Col.name := by
      simp [tableNames, hsplit, hnamec2]
    have hnotas : "Duration" ∉ as.map Col.name := by
      intro hmem
      obtain ⟨x, hx, hxn⟩ := List.mem_map.mp hmem
      exact has x hx hxn
    have hnotbs : "Duration" ∉ bs.map Col.name := by
      have hnd2 : (tableNames (odour_literals_to_numbers_core t)).Nodup := by
        rw [odour_names]
        exact hnd
      rw [hnamesplit] at hnd2
      exact not_mem_right_of_nodup_middle hnd2
    have hloop : castLoop (as.map Col.name ++ "Duration" :: bs.map Col.name)
        (odour_literals_to_numbers_core t) = .ok t5 := by
      rw [← hnamesplit]
      exact hcast
    obtain ⟨ta, tb, hA, hB, hfa, hfb⟩ := castLoop_process_unique hnotas hnotbs hloop
    have hfindta : findColNamed "Duration" ta.cols
        = some (substCol [("Annoy", bastard_tone_mapping)]
            (substCol intensity_and_annoy_mapping c)) := by
      rw [hfa, hfind1]
    obtain ⟨u1, u2, hcatU, htdU, hrdU⟩ := castOne_duration_inv hB
    -- categorical tagging first
    obtain ⟨c3, hc3, hfind_u1⟩ :=
      updateCol_findCol_self (fun x y hx => astypeCategory_name hx) hcatU hfindta
    have hc3eq := astypeCategory_inv hc3
    subst hc3eq
    -- then the timedelta division overwrites it
    obtain ⟨c4, hc4td, hfind_u2⟩ :=
      updateCol_findCol_self (fun x y hx => toTimedeltaCol_name hx) htdU hfind_u1
    obtain ⟨hname4, hdty4, hmap4⟩ := toTimedeltaCol_inv hc4td
    obtain ⟨b, hbval, hc4i⟩ := exMapM_ok_get _ hmap4 i (Cell.str "00:05:00") hc2cell
    have hbeq : toTimedeltaMinutesCell (Cell.str "00:05:00")
        = .ok (Cell.fl ⟨5, 1⟩) := by decide
    rw [hbeq] at hbval
    injection hbval with hbval
    subst hbval
    -- the round() pass keeps the value
    obtain ⟨c5, hc5rd, hfind_tb⟩ :=
      updateCol_findCol_self (fun x y hx => roundCol_name hx) hrdU hfind_u2
    obtain ⟨hname5, hdty5, hmap5⟩ := roundCol_inv hc5rd
    obtain ⟨b2, hb2val, hc5i⟩ := exMapM_ok_get _ hmap5 i (Cell.fl ⟨5, 1⟩) hc4i
    have hb2eq : roundCell (Cell.fl ⟨5, 1⟩) = .ok (Cell.fl ⟨5, 1⟩) := by decide
    rw [hb2eq] at hb2val
    injection hb2val with hb2val
    subst hb2val
    have hfinal : findColNamed "Duration" t5.cols = some c5 := by
      rw [hfb, hfind_tb]
    show ((findColNamed "Duration" t5.cols).bind (fun c3 => c3.cells[i]?))
        = some (Cell.fl ⟨5, 1⟩) ∧
      (findColNamed "Duration" t5.cols).map Col.dtype = some DType.floatT
    rw [hfinal]
    refine ⟨hc5i, ?_⟩
    show some c5.dtype = some DType.floatT
    rw [hdty5, hdty4]

/-- C3 witness at the concrete one-cell table. -/
theorem duration_punctual_recode_and_cast_witness :
    findColNamed "Duration" durationSample.cols
      = some ⟨"Duration", .obj, [Cell.str "Punctual odor"]⟩ ∧
    ((findColNamed "Duration" (odour_literals_to_numbers_core durationSample).cols).bind
        (fun c2 => c2.cells[0]?)) = some (Cell.str "00:05:00") ∧
    ((findColNamed "Duration"
          (FilterOutcome.state ⟨none, ⟨1, [⟨"Duration", .floatT, [Cell.fl ⟨5, 1⟩]⟩]⟩⟩).cols).bind
        (fun c3 => c3.cells[0]?)) = some (Cell.fl ⟨5, 1⟩) := by
  have h := duration_punctual_recode_and_cast durationSample
    ⟨"Duration", .obj, [Cell.str "Punctual odor"]⟩ 0 (by decide) (by decide) (by decide)
  refine ⟨by decide, h.1, ?_⟩
  exact (h.2 ⟨none, ⟨1, [⟨"Duration", .floatT, [Cell.fl ⟨5, 1⟩]⟩]⟩⟩ (by decide)).1

end OCUtils
